import Mathlib

/-!
Verification of the GraphQL mock-response filler ("createFiller").

This development gives a shallow embedding of the schema-driven
mock-response generator described in the repository's specification and
exercised by the repository's test suite (`createFiller()` tests).  The
filler implementation itself is not part of the available sources (only
its tests are), so every definition of the core engine below is modelled
from the specification text, faithful to its words, and validated
against the concrete expectations of the test file.

The filler is written with an explicit fuel argument so that it is a
computable, kernel-reducible function; a fuel-adequacy theorem shows
that some fuel (depending only on the supplied selection set, never on
the possibly-cyclic schema type graph) makes the result stable, which is
the formal content of the specification's termination guarantee.
-/

namespace GraphQLFill

/-- Modelled from the spec: a Filled Response value — a plain keyed
structure mirroring the selection set: primitives, ordered sequences and
keyed structures.  Floats are represented as rationals so that "a value
that never equals its own rounding" is expressible. -/
inductive Value where
  | vnull
  | vint (n : Int)
  | vfloat (q : Rat)
  | vbool (b : Bool)
  | vstring (s : String)
  | vlist (items : List Value)
  | vobject (fields : List (String × Value))
deriving Repr

/-- Modelled from the spec: a Partial Override Tree entry — a literal
value, a nested tree keyed by response name, an explicit list of
per-item overrides (an absent item means "no override for this item"),
or a zero-argument thunk.  A thunk is pure, so it is represented by the
value it returns, marked with the `func` constructor; invoking the thunk
is unwrapping the marker. -/
inductive Override where
  | val (v : Value)
  | obj (entries : List (String × Override))
  | arr (items : List (Option Override))
  | func (body : Override)
deriving Repr

/-- Modelled from the spec: the `list(n, partial?)` helper exposed to
callers — an array of `n` identical per-item overrides. -/
def list (n : Nat) (item : Option Override) : Override :=
  .arr (List.replicate n item)

/-- Modelled from the spec: a field's declared type with nullability and
list wrapping, as in a GraphQL schema. -/
inductive TypeRef where
  | named (name : String)
  | nonNull (ofType : TypeRef)
  | listOf (ofType : TypeRef)
deriving Repr, DecidableEq

/-- Modelled from the spec: a field declaration of an object or
interface type. -/
structure FieldDef where
  name : String
  type : TypeRef
deriving Repr, DecidableEq

/-- Modelled from the spec: a named schema type descriptor, one of
Scalar, Enum, Object, Interface, Union.  Interface and union types
expose the names of their concrete member types. -/
inductive SchemaType where
  | scalar (name : String)
  | enum (name : String) (values : List String)
  | object (name : String) (fields : List FieldDef)
  | interface (name : String) (fields : List FieldDef) (implementors : List String)
  | union (name : String) (members : List String)
deriving Repr, DecidableEq

def SchemaType.name : SchemaType → String
  | .scalar n => n
  | .enum n _ => n
  | .object n _ => n
  | .interface n _ _ => n
  | .union n _ => n

/-- The field map of an object or interface type. -/
def SchemaType.fieldType : SchemaType → String → Option TypeRef
  | .object _ fs, n => (fs.find? (fun f => f.name == n)).map (·.type)
  | .interface _ fs _, n => (fs.find? (fun f => f.name == n)).map (·.type)
  | _, _ => none

/-- Modelled from the spec: a schema — type-by-name lookup plus the root
operation type name. -/
structure Schema where
  types : List SchemaType
  queryTypeName : String

def Schema.lookupType (s : Schema) (n : String) : Option SchemaType :=
  s.types.find? (fun t => t.name == n)

/-- Modelled from the spec: a selection node — a field selection (name,
optional response alias, nested selection set) or a fragment spread with
a type condition. -/
inductive Selection where
  | field (name : String) (al : Option String) (selections : List Selection)
  | fragment (typeCondition : String) (selections : List Selection)
deriving Repr

/-- Modelled from the spec: the Scalar Value Synthesizer's random
source, injectable and threaded through the fill call.  `pick` drives
the uniform choices (enum member, concrete type of an abstract type). -/
structure RandomSource where
  int : Int
  floatBase : Int
  bool : Bool
  string : String
  pick : Nat

/-- Modelled from the spec: a registered resolver — a generator
receiving the schema type descriptor and the enclosing parent type
descriptor, producing a value or partial object for that type. -/
def Resolver := SchemaType → SchemaType → Override

/-- Modelled from the spec: the configuration and collaborators of one
fill invocation: the schema, the `addTypename` option, the resolver
registry, and the random source. -/
structure Context where
  schema : Schema
  addTypename : Bool
  resolvers : List (String × Resolver)
  rand : RandomSource

/-- Resolver Registry Lookup: a pure mapping read. -/
def Context.resolverFor (c : Context) (n : String) : Option Resolver :=
  (c.resolvers.find? (fun e => e.1 == n)).map (·.2)

/-- Modelled from the spec: the fill call fails with
`UnknownConcreteTypeError` when an explicit `__typename` override names
a type that is not a member of the abstract type in scope; this is the
only validation failure of the core.  `outOfFuel` is an artifact of the
fuel-indexed embedding and is shown unreachable for sufficient fuel. -/
inductive FillError where
  | unknownConcreteType (provided : String) (abstractName : String)
  | outOfFuel
deriving Repr, DecidableEq

/-- Modelled from the spec: thunk unwrapping in the Partial Value
Resolver — a stored thunk is invoked and the result reclassified
recursively, so a thunk may itself yield another thunk. -/
def resolveThunks : Override → Override
  | .func p => resolveThunks p
  | .val v => .val v
  | .obj es => .obj es
  | .arr its => .arr its

/-- Lookup of a key in a Partial Override Tree. -/
def lookupEntry (k : String) (es : List (String × Override)) : Option Override :=
  (es.find? (fun e => e.1 == k)).map (·.2)

/-- Lookup of a response key in a filled object's entry list. -/
def lookupField (k : String) (es : List (String × Value)) : Option Value :=
  (es.find? (fun e => e.1 == k)).map (·.2)

/-- Modelled from the spec: the per-key merge priority — the explicit
partial-override entry for a key always wins, the resolver-produced
entry is used only for keys the override omits. -/
def entryChoice (ov ro : List (String × Override)) (k : String) : Option Override :=
  match lookupEntry k ov with
  | some p => some p
  | none => lookupEntry k ro

mutual
/-- A literal override is used verbatim: this converts an override to
the output value it denotes, unwrapping thunks. -/
def overrideToValue : Override → Value
  | .val v => v
  | .obj es => .vobject (overrideEntriesToValue es)
  | .arr its => .vlist (overrideItemsToValue its)
  | .func p => overrideToValue p

def overrideEntriesToValue : List (String × Override) → List (String × Value)
  | [] => []
  | (k, p) :: rest => (k, overrideToValue p) :: overrideEntriesToValue rest

def overrideItemsToValue : List (Option Override) → List Value
  | [] => []
  | none :: rest => .vnull :: overrideItemsToValue rest
  | some p :: rest => overrideToValue p :: overrideItemsToValue rest
end

mutual
/-- Removes every thunk marker, everywhere in an override tree.  Fill
output depends only on this normal form: that is the observational
equivalence of thunk and literal overrides. -/
def stripFuncs : Override → Override
  | .val v => .val v
  | .obj es => .obj (stripFuncsEntries es)
  | .arr its => .arr (stripFuncsItems its)
  | .func p => stripFuncs p

def stripFuncsEntries : List (String × Override) → List (String × Override)
  | [] => []
  | (k, p) :: rest => (k, stripFuncs p) :: stripFuncsEntries rest

def stripFuncsItems : List (Option Override) → List (Option Override)
  | [] => []
  | none :: rest => none :: stripFuncsItems rest
  | some p :: rest => some (stripFuncs p) :: stripFuncsItems rest
end

/-- Modelled from the spec: the Scalar Value Synthesizer — Int yields a
random integer, Float a random non-integral number, Boolean a random
boolean; String, ID and unknown custom scalar names degenerate to a
random string. -/
def synthesizeScalar (r : RandomSource) (kind : String) : Value :=
  if kind == "Int" then .vint r.int
  else if kind == "Float" then .vfloat ((2 * r.floatBase + 1 : Rat) / 2)
  else if kind == "Boolean" then .vbool r.bool
  else .vstring r.string

/-- Modelled from the spec: enum synthesis picks one of the enum's
declared value names. -/
def synthesizeEnum (r : RandomSource) (values : List String) : Value :=
  .vstring (values.getD (r.pick % values.length) "")

/-- Modelled from the spec: the `__typename` entry of a Partial
Override Tree, unwrapped through thunks, as the requested concrete type
name for the Type Selector. -/
def typenameFrom (es : List (String × Override)) : Option String :=
  match lookupEntry "__typename" es with
  | some p =>
    match resolveThunks p with
    | .val (.vstring s) => some s
    | _ => none
  | none => none

/-- Modelled from the spec: the Type Selector — returns the concrete
type named by the override when one is supplied, failing with
`UnknownConcreteTypeError` when that name is not a member of the
abstract type; otherwise picks among the members using the random
source. -/
def chooseConcrete (r : RandomSource) (abstractName : String)
    (members : List String) (entry : Option Override) : Except FillError String :=
  match entry with
  | some (.obj es) =>
    match typenameFrom es with
    | some s =>
      if members.contains s then .ok s
      else .error (.unknownConcreteType s abstractName)
    | none => .ok (members.getD (r.pick % members.length) abstractName)
  | _ => .ok (members.getD (r.pick % members.length) abstractName)

/-- Modelled from the spec: fragment type-condition matching — the
condition matches the concrete type itself, any interface it
implements, or a union it belongs to. -/
def matchesCondition (schema : Schema) (concreteName cond : String) : Bool :=
  cond == concreteName ||
    (match schema.lookupType cond with
     | some (.interface _ _ impls) => impls.contains concreteName
     | some (.union _ members) => members.contains concreteName
     | _ => false)

/-- Modelled from the spec: the entries the registered resolver for an
object type contributes, to be merged at lower priority than the
override tree; the generator receives the type descriptor and the
enclosing parent type descriptor, and its result is treated as a tree
for object types. -/
def resolverEntries (ctx : Context) (nm : String) (fs : List FieldDef)
    (parent : SchemaType) : List (String × Override) :=
  match ctx.resolverFor nm with
  | some g =>
    match resolveThunks (g (.object nm fs) parent) with
    | .obj es => es
    | _ => []
  | none => []

/-- Modelled from the spec: when the `addTypename` option is set, every
object-typed selection receives a `__typename` entry naming the concrete
type, appended when not already present. -/
def withTypename (ctx : Context) (nm : String)
    (entries : List (String × Value)) : List (String × Value) :=
  if ctx.addTypename && (lookupField "__typename" entries).isNone
  then entries ++ [("__typename", .vstring nm)] else entries

/-- Modelled from the spec: filling a scalar-typed leaf (declared or
built-in or unknown custom scalar) — override verbatim, else resolver,
else synthesis. -/
def fillScalarLeaf (ctx : Context) (n : String) (parent : SchemaType)
    (entry : Option Override) : Value :=
  match entry with
  | some p => overrideToValue p
  | none =>
    match ctx.resolverFor n with
    | some g => overrideToValue (g (.scalar n) parent)
    | none => synthesizeScalar ctx.rand n

/-- Modelled from the spec: filling an enum-typed leaf — override
verbatim, else resolver, else a member of the declared value set. -/
def fillEnumLeaf (ctx : Context) (n : String) (values : List String)
    (parent : SchemaType) (entry : Option Override) : Value :=
  match entry with
  | some p => overrideToValue p
  | none =>
    match ctx.resolverFor n with
    | some g => overrideToValue (g (.enum n values) parent)
    | none => synthesizeEnum ctx.rand values

/-- Sequencing of a fallible computation over a list, stopping at the
first error and keeping the order of results. -/
def exceptMap (f : α → Except ε β) : List α → Except ε (List β)
  | [] => .ok []
  | a :: rest =>
    match f a with
    | .error e => .error e
    | .ok b =>
      match exceptMap f rest with
      | .error e => .error e
      | .ok bs => .ok (b :: bs)

mutual
/-- Modelled from the spec: the Selection Filler's handling of one
selection node against the concrete type `t` in scope, producing the
response entries the node contributes.  A fragment whose type condition
matches contributes its inner nodes flattened at this level; a
non-matching fragment contributes nothing.  A `__typename` meta-field
yields the concrete type's name under its response alias.  An ordinary
field resolves, in priority order, the partial-override entry, the
resolver-produced entry, then structural synthesis. -/
def fillSel (ctx : Context) :
    Nat → SchemaType → Selection → List (String × Override) →
      List (String × Override) → Except FillError (List (String × Value))
  | 0, _, _, _, _ => .error .outOfFuel
  | fuel + 1, t, .fragment cond sub, ov, ro =>
    if matchesCondition ctx.schema t.name cond then
      match exceptMap (fun s => fillSel ctx fuel t s ov ro) sub with
      | .error e => .error e
      | .ok ess => .ok ess.flatten
    else .ok []
  | fuel + 1, t, .field n al sub, ov, ro =>
    let rname := al.getD n
    if n == "__typename" then .ok [(rname, .vstring t.name)]
    else
      match t.fieldType n with
      | none => .ok []
      | some tr =>
        match fillTypeRef ctx fuel t tr sub (entryChoice ov ro rname) with
        | .error e => .error e
        | .ok v => .ok [(rname, v)]

/-- Modelled from the spec: filling one value of declared type `tr`
inside parent type `parent`, with `sels` the nested selection set and
`entry` the override entry for this value.  Nullability wrappers are
transparent (the filler never synthesizes null); a list field with no
override entry is filled empty, and an explicit list override is filled
item by item, in order; a literal override is used verbatim; named
types dispatch on the schema: scalar and enum leaves consult the
resolver registry then the synthesizer, object types recurse, and
interface or union types consult the Type Selector first. -/
def fillTypeRef (ctx : Context) :
    Nat → SchemaType → TypeRef → List Selection → Option Override →
      Except FillError Value
  | 0, _, _, _, _ => .error .outOfFuel
  | fuel + 1, parent, .nonNull t, sels, entry =>
    fillTypeRef ctx fuel parent t sels (entry.map resolveThunks)
  | fuel + 1, parent, .listOf t, sels, entry =>
    match entry.map resolveThunks with
    | none => .ok (.vlist [])
    | some (.arr items) =>
      match exceptMap (fun it => fillTypeRef ctx fuel parent t sels it) items with
      | .error e => .error e
      | .ok vs => .ok (.vlist vs)
    | some p => .ok (overrideToValue p)
  | fuel + 1, parent, .named n, sels, entry =>
    let entry := entry.map resolveThunks
    match ctx.schema.lookupType n with
    | some (.object nm fs) => fillObjectV ctx fuel nm fs sels entry parent
    | some (.enum _ values) => .ok (fillEnumLeaf ctx n values parent entry)
    | some (.interface nm _ ms) =>
      match entry with
      | some (.val v) => .ok v
      | _ =>
        match chooseConcrete ctx.rand nm ms entry with
        | .error e => .error e
        | .ok c =>
          match ctx.schema.lookupType c with
          | some (.object cn cfs) => fillObjectV ctx fuel cn cfs sels entry parent
          | _ => .ok (.vobject [])
    | some (.union nm ms) =>
      match entry with
      | some (.val v) => .ok v
      | _ =>
        match chooseConcrete ctx.rand nm ms entry with
        | .error e => .error e
        | .ok c =>
          match ctx.schema.lookupType c with
          | some (.object cn cfs) => fillObjectV ctx fuel cn cfs sels entry parent
          | _ => .ok (.vobject [])
    | some (.scalar _) => .ok (fillScalarLeaf ctx n parent entry)
    | none => .ok (fillScalarLeaf ctx n parent entry)

/-- Modelled from the spec: filling a concrete object type `nm` with
field list `fs` against the selection set `sels`.  A literal override is
used verbatim; otherwise the override tree's entries are merged, field
by field and at higher priority, with the entries produced by the
registered resolver for `nm` (invoked with the type and its enclosing
parent type), and each selection is filled in order; when the
`addTypename` option is set, a `__typename` entry naming the concrete
type is appended if not already present. -/
def fillObjectV (ctx : Context) :
    Nat → String → List FieldDef → List Selection → Option Override →
      SchemaType → Except FillError Value
  | 0, _, _, _, _, _ => .error .outOfFuel
  | fuel + 1, nm, fs, sels, entry, parent =>
    match entry with
    | some (.val v) => .ok v
    | some (.arr its) => .ok (overrideToValue (.arr its))
    | _ =>
      let t := SchemaType.object nm fs
      let ov := match entry with
        | some (.obj es) => es
        | _ => []
      let ro := resolverEntries ctx nm fs parent
      match exceptMap (fun s => fillSel ctx fuel t s ov ro) sels with
      | .error e => .error e
      | .ok ess => .ok (.vobject (withTypename ctx nm ess.flatten))
end

/-- Filling a whole selection set at one level: the entries contributed
by each node, in order, flattened. -/
def fillSels (ctx : Context) (fuel : Nat) (t : SchemaType) (sels : List Selection)
    (ov ro : List (String × Override)) : Except FillError (List (String × Value)) :=
  match exceptMap (fun s => fillSel ctx fuel t s ov ro) sels with
  | .error e => .error e
  | .ok ess => .ok ess.flatten

/-- Modelled from the spec: the public entry point — fill the document's
selection set against the schema's root operation type, with an optional
Partial Override Tree.  The root type acts as its own enclosing parent
type. -/
def fillDocument (ctx : Context) (fuel : Nat) (sels : List Selection)
    (p : Option Override) : Except FillError Value :=
  match ctx.schema.lookupType ctx.schema.queryTypeName with
  | some (.object nm fs) =>
    fillObjectV ctx fuel nm fs sels (p.map resolveThunks) (.object nm fs)
  | _ => .ok (.vobject [])

mutual
/-- The response keys a selection set produces at one level against the
concrete type `t`: the response names of the fields selected directly
and of the fields of fragments whose type condition matches, in order;
fields absent from the type's field map and non-matching fragments
contribute no key. -/
def selKeyOne (schema : Schema) (t : SchemaType) (s : Selection) : List String :=
  match s with
  | .field n al _ =>
    if n == "__typename" then [al.getD n]
    else
      match t.fieldType n with
      | some _ => [al.getD n]
      | none => []
  | .fragment cond sub =>
    if matchesCondition schema t.name cond then selKeyList schema t sub else []

def selKeyList (schema : Schema) (t : SchemaType) (sels : List Selection) :
    List String :=
  match sels with
  | [] => []
  | s :: rest => selKeyOne schema t s ++ selKeyList schema t rest
end

mutual
/-- No selection at this level (fragments included) puts an ordinary
field under the response key `__typename`. -/
def noClashOne (schema : Schema) (t : SchemaType) (s : Selection) : Bool :=
  match s with
  | .field n al _ => al.getD n != "__typename" || n == "__typename"
  | .fragment _ sub => noTypenameClash schema t sub

def noTypenameClash (schema : Schema) (t : SchemaType) (sels : List Selection) :
    Bool :=
  match sels with
  | [] => true
  | s :: rest => noClashOne schema t s && noTypenameClash schema t rest
end

mutual
/-- The selection set explicitly requests the `__typename` meta-field
under its own name at this level, directly or through a matching
fragment. -/
def requestsOne (schema : Schema) (t : SchemaType) (s : Selection) : Bool :=
  match s with
  | .field n al _ => n == "__typename" && al.getD n == "__typename"
  | .fragment cond sub =>
    matchesCondition schema t.name cond && requestsTypename schema t sub

def requestsTypename (schema : Schema) (t : SchemaType) (sels : List Selection) :
    Bool :=
  match sels with
  | [] => false
  | s :: rest => requestsOne schema t s || requestsTypename schema t rest
end

/-- Follows a path of response keys through nested filled objects. -/
def getPath : Value → List String → Option Value
  | v, [] => some v
  | .vobject es, k :: rest =>
    match lookupField k es with
    | some v => getPath v rest
    | none => none
  | _, _ => none

/-- The base named type of a field type, ignoring nullability wrappers;
`none` for list types. -/
def baseName : TypeRef → Option String
  | .named n => some n
  | .nonNull t => baseName t
  | .listOf _ => none

/-- The override tree `ov` addresses the leaf at `path` below an object
of type `t` selected by `sels`: each path component is a selected field
whose response key is not produced by an earlier selection at its level,
the override tree descends through nested sub-trees along the path, and
the final component's entry is a literal (possibly thunk-wrapped)
yielding `v`.  Path components are never the `__typename` meta-key. -/
inductive OverrideAt (ctx : Context) :
    SchemaType → List Selection → List (String × Override) → List String → Value → Prop
  | leaf {t : SchemaType} {pre post sub : List Selection} {n : String}
      {al : Option String} {k : String} {tr : TypeRef}
      {ov : List (String × Override)} {p : Override} {v : Value} :
      (n == "__typename") = false →
      al.getD n = k →
      k ≠ "__typename" →
      t.fieldType n = some tr →
      k ∉ selKeyList ctx.schema t pre →
      lookupEntry k ov = some p →
      resolveThunks p = .val v →
      OverrideAt ctx t (pre ++ .field n al sub :: post) ov [k] v
  | step {t : SchemaType} {pre post sub : List Selection} {n : String}
      {al : Option String} {k : String} {tr : TypeRef}
      {ov es : List (String × Override)} {p : Override} {bn cn : String}
      {cfs : List FieldDef} {rest : List String} {v : Value} :
      (n == "__typename") = false →
      al.getD n = k →
      k ≠ "__typename" →
      t.fieldType n = some tr →
      k ∉ selKeyList ctx.schema t pre →
      lookupEntry k ov = some p →
      resolveThunks p = .obj es →
      baseName tr = some bn →
      ctx.schema.lookupType bn = some (.object cn cfs) →
      OverrideAt ctx (.object cn cfs) sub es rest v →
      OverrideAt ctx t (pre ++ .field n al sub :: post) ov (k :: rest) v

/-- The name and concrete member list of an abstract (interface or
union) schema type. -/
def abstractMembers : SchemaType → Option (String × List String)
  | .interface nm _ ms => some (nm, ms)
  | .union nm ms => some (nm, ms)
  | _ => none

/-! ## Concrete fixtures drawn from the repository's test suite, used to
instantiate the claim theorems on closed inputs. -/

/-- A concrete random source for closed instantiations. -/
def testRand : RandomSource :=
  { int := 42, floatBase := 7, bool := true, string := "synth", pick := 1 }

/-- Schema of the falsy-override test: `Person { active: Boolean!
name: String! }`, `Query { self: Person! }`. -/
def falsySchema : Schema :=
  { types := [
      .object "Person" [⟨"active", .nonNull (.named "Boolean")⟩,
        ⟨"name", .nonNull (.named "String")⟩],
      .object "Query" [⟨"self", .nonNull (.named "Person")⟩]],
    queryTypeName := "Query" }

/-- Context of the falsy-override test: a `Person` resolver supplying
`active: true` and a name. -/
def falsyCtx : Context :=
  { schema := falsySchema, addTypename := false,
    resolvers := [("Person", fun _ _ =>
      .obj [("active", .val (.vbool true)), ("name", .val (.vstring "resolved"))])],
    rand := testRand }

/-- Schema of the nested-override tests: `Person { name: String!
mother: Person! }`, `Query { self: Person! }`. -/
def nestedSchema : Schema :=
  { types := [
      .object "Person" [⟨"name", .nonNull (.named "String")⟩,
        ⟨"mother", .nonNull (.named "Person")⟩],
      .object "Query" [⟨"self", .nonNull (.named "Person")⟩]],
    queryTypeName := "Query" }

/-- Context over the nested schema, no resolvers, no typename option. -/
def nestedCtx : Context :=
  { schema := nestedSchema, addTypename := false, resolvers := [],
    rand := testRand }

/-- The document of the nested-override test:
`self { name mother { name } }`. -/
def nestedDoc : List Selection :=
  [.field "self" none
    [.field "name" none [],
     .field "mother" none [.field "name" none []]]]

/-- Schema of the interface tests: interface `Named` implemented by
`Person`, `Dog` and `Cat`, and `Query { named: Named! }`. -/
def ifaceSchema : Schema :=
  { types := [
      .interface "Named" [⟨"name", .nonNull (.named "String")⟩]
        ["Person", "Dog", "Cat"],
      .object "Person" [⟨"name", .nonNull (.named "String")⟩,
        ⟨"occupation", .nonNull (.named "String")⟩],
      .object "Dog" [⟨"name", .nonNull (.named "String")⟩,
        ⟨"legs", .nonNull (.named "Int")⟩],
      .object "Cat" [⟨"name", .nonNull (.named "String")⟩,
        ⟨"livesLeft", .nonNull (.named "Int")⟩],
      .object "Query" [⟨"named", .nonNull (.named "Named")⟩]],
    queryTypeName := "Query" }

/-- Context over the interface schema. -/
def ifaceCtx : Context :=
  { schema := ifaceSchema, addTypename := false, resolvers := [],
    rand := testRand }

/-- Schema of the union tests: `union Named = Person | Dog | Cat` and
`Query { named: Named! }`. -/
def unionSchema : Schema :=
  { types := [
      .object "Person" [⟨"name", .nonNull (.named "String")⟩,
        ⟨"occupation", .nonNull (.named "String")⟩],
      .object "Dog" [⟨"name", .nonNull (.named "String")⟩,
        ⟨"legs", .nonNull (.named "Int")⟩],
      .object "Cat" [⟨"name", .nonNull (.named "String")⟩,
        ⟨"livesLeft", .nonNull (.named "Int")⟩],
      .union "Named" ["Person", "Dog", "Cat"],
      .object "Query" [⟨"named", .nonNull (.named "Named")⟩]],
    queryTypeName := "Query" }

/-- Context over the union schema. -/
def unionCtx : Context :=
  { schema := unionSchema, addTypename := false, resolvers := [],
    rand := testRand }

/-- Schema of the list tests: `Query { people: [Person!]! }` with
`Person { name: String! }`. -/
def peopleSchema : Schema :=
  { types := [
      .object "Person" [⟨"name", .nonNull (.named "String")⟩],
      .object "Query" [⟨"people", .nonNull (.listOf (.nonNull (.named "Person")))⟩]],
    queryTypeName := "Query" }

/-- Context over the list schema. -/
def peopleCtx : Context :=
  { schema := peopleSchema, addTypename := false, resolvers := [],
    rand := testRand }

/-- Schema of the enum test: `enum PetPreference { DOG CAT }` and
`Query { petPreference: PetPreference! }`. -/
def enumSchema : Schema :=
  { types := [
      .enum "PetPreference" ["DOG", "CAT"],
      .object "Query" [⟨"petPreference", .nonNull (.named "PetPreference")⟩]],
    queryTypeName := "Query" }

/-- Context over the enum schema. -/
def enumCtx : Context :=
  { schema := enumSchema, addTypename := false, resolvers := [],
    rand := testRand }

/-- Schema of the basic-object typename tests: `Person { name:
String! }`, `Query { self: Person! }`. -/
def basicSchema : Schema :=
  { types := [
      .object "Person" [⟨"name", .nonNull (.named "String")⟩],
      .object "Query" [⟨"self", .nonNull (.named "Person")⟩]],
    queryTypeName := "Query" }

/-- Context over the basic schema with `addTypename` enabled. -/
def typenameCtx : Context :=
  { schema := basicSchema, addTypename := true, resolvers := [],
    rand := testRand }

/-! ## Basic lemmas about `exceptMap` -/

theorem exceptMap_congr_no_err {α β ε : Type} {f g : α → Except ε β} {e₀ : ε} :
    ∀ {l : List α}, (∀ a ∈ l, f a ≠ .error e₀ → g a = f a) →
      exceptMap f l ≠ .error e₀ → exceptMap g l = exceptMap f l
  | [], _, _ => rfl
  | a :: rest, h, hne => by
    have hfa : f a ≠ .error e₀ := by
      intro hc
      exact hne (by simp [exceptMap, hc])
    have hga := h a (by simp) hfa
    simp only [exceptMap, hga]
    cases hfa' : f a with
    | error e => rfl
    | ok b =>
      have hrest : exceptMap f rest ≠ .error e₀ := by
        intro hc
        exact hne (by simp [exceptMap, hfa', hc])
      rw [exceptMap_congr_no_err (fun a' ha' => h a' (by simp [ha'])) hrest]

theorem exceptMap_cons_ok {α β ε : Type} {f : α → Except ε β} {a : α}
    {l : List α} {bs : List β} (h : exceptMap f (a :: l) = .ok bs) :
    ∃ b bs', bs = b :: bs' ∧ f a = .ok b ∧ exceptMap f l = .ok bs' := by
  revert h
  simp only [exceptMap]
  cases hfa : f a with
  | error e => intro h; cases h
  | ok b =>
    cases hl : exceptMap f l with
    | error e => intro h; cases h
    | ok bs' => intro h; exact ⟨b, bs', by cases h; rfl, rfl, rfl⟩

theorem exceptMap_ok_forall₂ {α β ε : Type} {f : α → Except ε β} :
    ∀ {l : List α} {bs : List β}, exceptMap f l = .ok bs →
      List.Forall₂ (fun a b => f a = .ok b) l bs
  | [], bs, h => by
    cases h
    exact .nil
  | a :: rest, bs, h => by
    obtain ⟨b, bs', rfl, hfa, hrest⟩ := exceptMap_cons_ok h
    exact .cons hfa (exceptMap_ok_forall₂ hrest)

theorem exceptMap_append_ok {α β ε : Type} {f : α → Except ε β} :
    ∀ {l₁ l₂ : List α} {bs : List β}, exceptMap f (l₁ ++ l₂) = .ok bs →
      ∃ b₁ b₂, bs = b₁ ++ b₂ ∧ exceptMap f l₁ = .ok b₁ ∧ exceptMap f l₂ = .ok b₂
  | [], l₂, bs, h => ⟨[], bs, rfl, rfl, h⟩
  | a :: l₁, l₂, bs, h => by
    obtain ⟨b, bs', rfl, hfa, hrest⟩ := exceptMap_cons_ok h
    obtain ⟨b₁, b₂, rfl, h₁, h₂⟩ := exceptMap_append_ok hrest
    exact ⟨b :: b₁, b₂, rfl, by simp [exceptMap, hfa, h₁], h₂⟩

/-! ## Fuel monotonicity: a result other than fuel exhaustion is stable
under additional fuel. -/

theorem fill_mono_succ (ctx : Context) :
    ∀ fuel : Nat,
      (∀ t s ov ro, fillSel ctx fuel t s ov ro ≠ .error .outOfFuel →
        fillSel ctx (fuel + 1) t s ov ro = fillSel ctx fuel t s ov ro) ∧
      (∀ parent tr sels entry,
        fillTypeRef ctx fuel parent tr sels entry ≠ .error .outOfFuel →
        fillTypeRef ctx (fuel + 1) parent tr sels entry =
          fillTypeRef ctx fuel parent tr sels entry) ∧
      (∀ nm fs sels entry parent,
        fillObjectV ctx fuel nm fs sels entry parent ≠ .error .outOfFuel →
        fillObjectV ctx (fuel + 1) nm fs sels entry parent =
          fillObjectV ctx fuel nm fs sels entry parent) := by
  intro fuel
  induction fuel with
  | zero =>
    refine ⟨?_, ?_, ?_⟩
    · intro t s ov ro h
      exact absurd rfl h
    · intro parent tr sels entry h
      exact absurd rfl h
    · intro nm fs sels entry parent h
      exact absurd rfl h
  | succ fuel ih =>
    obtain ⟨ihSel, ihTr, ihObj⟩ := ih
    refine ⟨?_, ?_, ?_⟩
    · intro t s ov ro h
      cases s with
      | fragment cond sub =>
        cases hm : matchesCondition ctx.schema t.name cond with
        | false => simp only [fillSel, hm, Bool.false_eq_true, if_false]
        | true =>
          simp only [fillSel, hm, if_true] at h ⊢
          have hmap : exceptMap (fun s => fillSel ctx fuel t s ov ro) sub ≠
              .error .outOfFuel := by
            intro hc
            rw [hc] at h
            exact h rfl
          rw [exceptMap_congr_no_err (fun a _ ha => ihSel t a ov ro ha) hmap]
      | field n al sub =>
        cases hn : n == "__typename" with
        | true => simp only [fillSel, hn, if_true]
        | false =>
          simp only [fillSel, hn, Bool.false_eq_true, if_false] at h ⊢
          cases htr : t.fieldType n with
          | none => rfl
          | some tr =>
            simp only [htr] at h ⊢
            have hin : fillTypeRef ctx fuel t tr sub
                (entryChoice ov ro (al.getD n)) ≠ .error .outOfFuel := by
              intro hc
              rw [hc] at h
              exact h rfl
            rw [ihTr t tr sub (entryChoice ov ro (al.getD n)) hin]
    · intro parent tr sels entry h
      cases tr with
      | nonNull t =>
        simp only [fillTypeRef] at h ⊢
        exact ihTr parent t sels (entry.map resolveThunks) h
      | listOf t =>
        simp only [fillTypeRef] at h ⊢
        cases he : entry.map resolveThunks with
        | none => rfl
        | some p =>
          simp only [he] at h ⊢
          cases p with
          | arr items =>
            simp only [] at h ⊢
            have hmap : exceptMap
                (fun it => fillTypeRef ctx fuel parent t sels it) items ≠
                .error .outOfFuel := by
              intro hc
              rw [hc] at h
              exact h rfl
            rw [exceptMap_congr_no_err
              (fun a _ ha => ihTr parent t sels a ha) hmap]
          | val v => rfl
          | obj es => rfl
          | func p => rfl
      | named n =>
        simp only [fillTypeRef] at h ⊢
        cases hl : ctx.schema.lookupType n with
        | none => rfl
        | some st =>
          simp only [hl] at h ⊢
          cases st with
          | scalar _ => rfl
          | enum _ values => rfl
          | object nm fs =>
            exact ihObj nm fs sels (entry.map resolveThunks) parent h
          | interface nm ifs ms =>
            cases he : entry.map resolveThunks with
            | none =>
              simp only [he] at h ⊢
              cases hc : chooseConcrete ctx.rand nm ms none with
              | error e => rfl
              | ok c =>
                simp only [hc] at h ⊢
                cases hlc : ctx.schema.lookupType c with
                | none => rfl
                | some cst =>
                  simp only [hlc] at h ⊢
                  cases cst with
                  | object cn cfs => exact ihObj cn cfs sels none parent h
                  | scalar _ => rfl
                  | enum _ _ => rfl
                  | interface _ _ _ => rfl
                  | union _ _ => rfl
            | some p =>
              simp only [he] at h ⊢
              cases p with
              | val v => rfl
              | func q =>
                simp only [] at h ⊢
                cases hc : chooseConcrete ctx.rand nm ms (some (.func q)) with
                | error e => rfl
                | ok c =>
                  simp only [hc] at h ⊢
                  cases hlc : ctx.schema.lookupType c with
                  | none => rfl
                  | some cst =>
                    simp only [hlc] at h ⊢
                    cases cst with
                    | object cn cfs =>
                      exact ihObj cn cfs sels (some (.func q)) parent h
                    | scalar _ => rfl
                    | enum _ _ => rfl
                    | interface _ _ _ => rfl
                    | union _ _ => rfl
              | obj es =>
                simp only [] at h ⊢
                cases hc : chooseConcrete ctx.rand nm ms (some (.obj es)) with
                | error e => rfl
                | ok c =>
                  simp only [hc] at h ⊢
                  cases hlc : ctx.schema.lookupType c with
                  | none => rfl
                  | some cst =>
                    simp only [hlc] at h ⊢
                    cases cst with
                    | object cn cfs =>
                      exact ihObj cn cfs sels (some (.obj es)) parent h
                    | scalar _ => rfl
                    | enum _ _ => rfl
                    | interface _ _ _ => rfl
                    | union _ _ => rfl
              | arr its =>
                simp only [] at h ⊢
                cases hc : chooseConcrete ctx.rand nm ms (some (.arr its)) with
                | error e => rfl
                | ok c =>
                  simp only [hc] at h ⊢
                  cases hlc : ctx.schema.lookupType c with
                  | none => rfl
                  | some cst =>
                    simp only [hlc] at h ⊢
                    cases cst with
                    | object cn cfs =>
                      exact ihObj cn cfs sels (some (.arr its)) parent h
                    | scalar _ => rfl
                    | enum _ _ => rfl
                    | interface _ _ _ => rfl
                    | union _ _ => rfl
          | union nm ms =>
            cases he : entry.map resolveThunks with
            | none =>
              simp only [he] at h ⊢
              cases hc : chooseConcrete ctx.rand nm ms none with
              | error e => rfl
              | ok c =>
                simp only [hc] at h ⊢
                cases hlc : ctx.schema.lookupType c with
                | none => rfl
                | some cst =>
                  simp only [hlc] at h ⊢
                  cases cst with
                  | object cn cfs => exact ihObj cn cfs sels none parent h
                  | scalar _ => rfl
                  | enum _ _ => rfl
                  | interface _ _ _ => rfl
                  | union _ _ => rfl
            | some p =>
              simp only [he] at h ⊢
              cases p with
              | val v => rfl
              | func q =>
                simp only [] at h ⊢
                cases hc : chooseConcrete ctx.rand nm ms (some (.func q)) with
                | error e => rfl
                | ok c =>
                  simp only [hc] at h ⊢
                  cases hlc : ctx.schema.lookupType c with
                  | none => rfl
                  | some cst =>
                    simp only [hlc] at h ⊢
                    cases cst with
                    | object cn cfs =>
                      exact ihObj cn cfs sels (some (.func q)) parent h
                    | scalar _ => rfl
                    | enum _ _ => rfl
                    | interface _ _ _ => rfl
                    | union _ _ => rfl
              | obj es =>
                simp only [] at h ⊢
                cases hc : chooseConcrete ctx.rand nm ms (some (.obj es)) with
                | error e => rfl
                | ok c =>
                  simp only [hc] at h ⊢
                  cases hlc : ctx.schema.lookupType c with
                  | none => rfl
                  | some cst =>
                    simp only [hlc] at h ⊢
                    cases cst with
                    | object cn cfs =>
                      exact ihObj cn cfs sels (some (.obj es)) parent h
                    | scalar _ => rfl
                    | enum _ _ => rfl
                    | interface _ _ _ => rfl
                    | union _ _ => rfl
              | arr its =>
                simp only [] at h ⊢
                cases hc : chooseConcrete ctx.rand nm ms (some (.arr its)) with
                | error e => rfl
                | ok c =>
                  simp only [hc] at h ⊢
                  cases hlc : ctx.schema.lookupType c with
                  | none => rfl
                  | some cst =>
                    simp only [hlc] at h ⊢
                    cases cst with
                    | object cn cfs =>
                      exact ihObj cn cfs sels (some (.arr its)) parent h
                    | scalar _ => rfl
                    | enum _ _ => rfl
                    | interface _ _ _ => rfl
                    | union _ _ => rfl
    · intro nm fs sels entry parent h
      cases entry with
      | none =>
        simp only [fillObjectV] at h ⊢
        have hmap : exceptMap (fun s => fillSel ctx fuel (.object nm fs) s []
            (resolverEntries ctx nm fs parent)) sels ≠ .error .outOfFuel := by
          intro hc
          rw [hc] at h
          exact h rfl
        rw [exceptMap_congr_no_err
          (fun a _ ha => ihSel (.object nm fs) a [] (resolverEntries ctx nm fs parent) ha) hmap]
      | some p =>
        cases p with
        | val v => rfl
        | arr its => rfl
        | func q =>
          simp only [fillObjectV] at h ⊢
          have hmap : exceptMap (fun s => fillSel ctx fuel (.object nm fs) s []
              (resolverEntries ctx nm fs parent)) sels ≠ .error .outOfFuel := by
            intro hc
            rw [hc] at h
            exact h rfl
          rw [exceptMap_congr_no_err
            (fun a _ ha => ihSel (.object nm fs) a [] (resolverEntries ctx nm fs parent) ha) hmap]
        | obj es =>
          simp only [fillObjectV] at h ⊢
          have hmap : exceptMap (fun s => fillSel ctx fuel (.object nm fs) s es
              (resolverEntries ctx nm fs parent)) sels ≠ .error .outOfFuel := by
            intro hc
            rw [hc] at h
            exact h rfl
          rw [exceptMap_congr_no_err
            (fun a _ ha => ihSel (.object nm fs) a es (resolverEntries ctx nm fs parent) ha) hmap]

theorem fillSel_mono_le (ctx : Context) {fuel fuel' : Nat} (hle : fuel ≤ fuel')
    (t : SchemaType) (s : Selection) (ov ro : List (String × Override))
    (h : fillSel ctx fuel t s ov ro ≠ .error .outOfFuel) :
    fillSel ctx fuel' t s ov ro = fillSel ctx fuel t s ov ro := by
  induction fuel' with
  | zero =>
    cases Nat.le_zero.mp hle
    rfl
  | succ fuel' ih =>
    rcases Nat.lt_or_ge fuel (fuel' + 1) with hlt | hge
    · have hle' : fuel ≤ fuel' := Nat.lt_succ_iff.mp hlt
      have heq := ih hle'
      rw [← heq] at h
      rw [(fill_mono_succ ctx fuel').1 t s ov ro h, heq]
    · cases Nat.le_antisymm hle hge
      rfl

theorem fillTypeRef_mono_le (ctx : Context) {fuel fuel' : Nat} (hle : fuel ≤ fuel')
    (parent : SchemaType) (tr : TypeRef) (sels : List Selection)
    (entry : Option Override)
    (h : fillTypeRef ctx fuel parent tr sels entry ≠ .error .outOfFuel) :
    fillTypeRef ctx fuel' parent tr sels entry =
      fillTypeRef ctx fuel parent tr sels entry := by
  induction fuel' with
  | zero =>
    cases Nat.le_zero.mp hle
    rfl
  | succ fuel' ih =>
    rcases Nat.lt_or_ge fuel (fuel' + 1) with hlt | hge
    · have hle' : fuel ≤ fuel' := Nat.lt_succ_iff.mp hlt
      have heq := ih hle'
      rw [← heq] at h
      rw [(fill_mono_succ ctx fuel').2.1 parent tr sels entry h, heq]
    · cases Nat.le_antisymm hle hge
      rfl

theorem fillObjectV_mono_le (ctx : Context) {fuel fuel' : Nat} (hle : fuel ≤ fuel')
    (nm : String) (fs : List FieldDef) (sels : List Selection)
    (entry : Option Override) (parent : SchemaType)
    (h : fillObjectV ctx fuel nm fs sels entry parent ≠ .error .outOfFuel) :
    fillObjectV ctx fuel' nm fs sels entry parent =
      fillObjectV ctx fuel nm fs sels entry parent := by
  induction fuel' with
  | zero =>
    cases Nat.le_zero.mp hle
    rfl
  | succ fuel' ih =>
    rcases Nat.lt_or_ge fuel (fuel' + 1) with hlt | hge
    · have hle' : fuel ≤ fuel' := Nat.lt_succ_iff.mp hlt
      have heq := ih hle'
      rw [← heq] at h
      rw [(fill_mono_succ ctx fuel').2.2 nm fs sels entry parent h, heq]
    · cases Nat.le_antisymm hle hge
      rfl

theorem fillDocument_mono_le (ctx : Context) {fuel fuel' : Nat} (hle : fuel ≤ fuel')
    (sels : List Selection) (p : Option Override)
    (h : fillDocument ctx fuel sels p ≠ .error .outOfFuel) :
    fillDocument ctx fuel' sels p = fillDocument ctx fuel sels p := by
  unfold fillDocument at h ⊢
  cases hq : ctx.schema.lookupType ctx.schema.queryTypeName with
  | none => rfl
  | some st =>
    rw [hq] at h
    cases st with
    | object nm fs =>
      simp only [] at h ⊢
      exact fillObjectV_mono_le ctx hle nm fs sels (p.map resolveThunks)
        (.object nm fs) h
    | scalar _ => rfl
    | enum _ _ => rfl
    | interface _ _ _ => rfl
    | union _ _ => rfl

/-! ## Fuel adequacy: every fill has a sufficient fuel, determined by
the supplied selection set alone. -/

theorem chooseConcrete_ne_outOfFuel (r : RandomSource) (a : String)
    (ms : List String) (entry : Option Override) :
    chooseConcrete r a ms entry ≠ .error .outOfFuel := by
  intro hc
  unfold chooseConcrete at hc
  repeat' split at hc
  all_goals simp at hc

theorem exceptMap_adequate {α β : Type} {l : List α}
    {F : Nat → α → Except FillError β}
    (mono : ∀ a ∈ l, ∀ f f' : Nat, f ≤ f' → F f a ≠ .error .outOfFuel →
      F f' a = F f a)
    (h : ∀ a ∈ l, ∃ f, F f a ≠ .error .outOfFuel) :
    ∃ f, exceptMap (F f) l ≠ .error .outOfFuel := by
  induction l with
  | nil => exact ⟨0, by simp [exceptMap]⟩
  | cons a l ih =>
    obtain ⟨fa, ha⟩ := h a (by simp)
    obtain ⟨fl, hl⟩ := ih (fun a' ha' => mono a' (by simp [ha']))
      (fun a' ha' => h a' (by simp [ha']))
    refine ⟨max fa fl, ?_⟩
    have hfa : F (max fa fl) a = F fa a :=
      mono a (by simp) fa (max fa fl) (Nat.le_max_left fa fl) ha
    have hmapl : exceptMap (F (max fa fl)) l = exceptMap (F fl) l :=
      exceptMap_congr_no_err
        (fun a' ha' hne => mono a' (by simp [ha']) fl (max fa fl)
          (Nat.le_max_right fa fl) hne) hl
    simp only [exceptMap, hfa]
    cases hfa' : F fa a with
    | error e =>
      intro hc
      rw [hfa'] at ha
      cases hc
      exact ha rfl
    | ok b =>
      rw [hmapl]
      cases hl' : exceptMap (F fl) l with
      | error e =>
        intro hc
        rw [hl'] at hl
        cases hc
        exact hl rfl
      | ok bs => intro hc; cases hc

theorem fillObjectV_adequate (ctx : Context) {sels : List Selection}
    (hs : ∀ s ∈ sels, ∀ t ov ro, ∃ fuel,
      fillSel ctx fuel t s ov ro ≠ .error .outOfFuel)
    (nm : String) (fs : List FieldDef) (entry : Option Override)
    (parent : SchemaType) :
    ∃ fuel, fillObjectV ctx fuel nm fs sels entry parent ≠ .error .outOfFuel := by
  have main : ∀ ov, ∃ fuel,
      exceptMap (fun s => fillSel ctx fuel (.object nm fs) s ov
        (resolverEntries ctx nm fs parent)) sels ≠ .error .outOfFuel := by
    intro ov
    exact exceptMap_adequate
      (fun a _ f f' hle hne => fillSel_mono_le ctx hle _ a _ _ hne)
      (fun a ha => hs a ha (.object nm fs) ov (resolverEntries ctx nm fs parent))
  cases entry with
  | none =>
    obtain ⟨fuel, hf⟩ := main []
    refine ⟨fuel + 1, ?_⟩
    simp only [fillObjectV]
    cases hm : exceptMap (fun s => fillSel ctx fuel (.object nm fs) s []
        (resolverEntries ctx nm fs parent)) sels with
    | error e =>
      intro hc
      rw [hm] at hf
      cases hc
      exact hf rfl
    | ok ess => intro hc; cases hc
  | some p =>
    cases p with
    | val v => exact ⟨1, by intro hc; cases hc⟩
    | arr its => exact ⟨1, by intro hc; cases hc⟩
    | func q =>
      obtain ⟨fuel, hf⟩ := main []
      refine ⟨fuel + 1, ?_⟩
      simp only [fillObjectV]
      cases hm : exceptMap (fun s => fillSel ctx fuel (.object nm fs) s []
          (resolverEntries ctx nm fs parent)) sels with
      | error e =>
        intro hc
        rw [hm] at hf
        cases hc
        exact hf rfl
      | ok ess => intro hc; cases hc
    | obj es =>
      obtain ⟨fuel, hf⟩ := main es
      refine ⟨fuel + 1, ?_⟩
      simp only [fillObjectV]
      cases hm : exceptMap (fun s => fillSel ctx fuel (.object nm fs) s es
          (resolverEntries ctx nm fs parent)) sels with
      | error e =>
        intro hc
        rw [hm] at hf
        cases hc
        exact hf rfl
      | ok ess => intro hc; cases hc

theorem fillTypeRef_adequate (ctx : Context) {sels : List Selection}
    (hs : ∀ s ∈ sels, ∀ t ov ro, ∃ fuel,
      fillSel ctx fuel t s ov ro ≠ .error .outOfFuel)
    (tr : TypeRef) (parent : SchemaType) (entry : Option Override) :
    ∃ fuel, fillTypeRef ctx fuel parent tr sels entry ≠ .error .outOfFuel := by
  induction tr generalizing entry with
  | nonNull t ih =>
    obtain ⟨fuel, hf⟩ := ih (entry.map resolveThunks)
    exact ⟨fuel + 1, by simpa only [fillTypeRef] using hf⟩
  | listOf t ih =>
    cases he : entry.map resolveThunks with
    | none => exact ⟨1, by simp only [fillTypeRef, he]; intro hc; cases hc⟩
    | some p =>
      cases p with
      | arr items =>
        obtain ⟨fuel, hf⟩ := @exceptMap_adequate (Option Override) Value items
          (fun fuel it => fillTypeRef ctx fuel parent t sels it)
          (fun a _ f f' hle hne => fillTypeRef_mono_le ctx hle parent t sels a hne)
          (fun a _ => ih a)
        refine ⟨fuel + 1, ?_⟩
        simp only [fillTypeRef, he]
        cases hm : exceptMap (fun it => fillTypeRef ctx fuel parent t sels it)
            items with
        | error e =>
          intro hc
          rw [hm] at hf
          cases hc
          exact hf rfl
        | ok vs => intro hc; cases hc
      | val v =>
        exact ⟨1, by simp only [fillTypeRef, he]; intro hc; cases hc⟩
      | obj es =>
        exact ⟨1, by simp only [fillTypeRef, he]; intro hc; cases hc⟩
      | func q =>
        exact ⟨1, by simp only [fillTypeRef, he]; intro hc; cases hc⟩
  | named n =>
    cases hl : ctx.schema.lookupType n with
    | none => exact ⟨1, by simp only [fillTypeRef, hl]; intro hc; cases hc⟩
    | some st =>
      cases st with
      | scalar _ => exact ⟨1, by simp only [fillTypeRef, hl]; intro hc; cases hc⟩
      | enum _ _ => exact ⟨1, by simp only [fillTypeRef, hl]; intro hc; cases hc⟩
      | object onm ofs =>
        obtain ⟨fuel, hf⟩ := fillObjectV_adequate ctx hs onm ofs
          (entry.map resolveThunks) parent
        refine ⟨fuel + 1, ?_⟩
        simp only [fillTypeRef, hl]
        exact hf
      | interface nm ifs ms =>
        cases he : entry.map resolveThunks with
        | none =>
          cases hc : chooseConcrete ctx.rand nm ms ((none : Option Override)) with
          | error e =>
            refine ⟨1, ?_⟩
            simp only [fillTypeRef, hl, he, hc]
            intro hcon
            cases hcon
            exact chooseConcrete_ne_outOfFuel ctx.rand nm ms ((none : Option Override)) hc
          | ok c =>
            cases hlc : ctx.schema.lookupType c with
            | none =>
              exact ⟨1, by simp only [fillTypeRef, hl, he, hc, hlc]; intro hcc; cases hcc⟩
            | some cst =>
              cases cst with
              | object cn cfs =>
                obtain ⟨fuel, hf⟩ := fillObjectV_adequate ctx hs cn cfs ((none : Option Override)) parent
                exact ⟨fuel + 1, by simp only [fillTypeRef, hl, he, hc, hlc]; exact hf⟩
              | scalar _ =>
                exact ⟨1, by simp only [fillTypeRef, hl, he, hc, hlc]; intro hcc; cases hcc⟩
              | enum _ _ =>
                exact ⟨1, by simp only [fillTypeRef, hl, he, hc, hlc]; intro hcc; cases hcc⟩
              | interface _ _ _ =>
                exact ⟨1, by simp only [fillTypeRef, hl, he, hc, hlc]; intro hcc; cases hcc⟩
              | union _ _ =>
                exact ⟨1, by simp only [fillTypeRef, hl, he, hc, hlc]; intro hcc; cases hcc⟩
        | some p =>
          cases p with
          | val v =>
            exact ⟨1, by simp only [fillTypeRef, hl, he]; intro hcc; cases hcc⟩
          | obj es =>
            cases hc : chooseConcrete ctx.rand nm ms (some (.obj es)) with
            | error e =>
              refine ⟨1, ?_⟩
              simp only [fillTypeRef, hl, he, hc]
              intro hcon
              cases hcon
              exact chooseConcrete_ne_outOfFuel ctx.rand nm ms (some (.obj es)) hc
            | ok c =>
              cases hlc : ctx.schema.lookupType c with
              | none =>
                exact ⟨1, by simp only [fillTypeRef, hl, he, hc, hlc]; intro hcc; cases hcc⟩
              | some cst =>
                cases cst with
                | object cn cfs =>
                  obtain ⟨fuel, hf⟩ := fillObjectV_adequate ctx hs cn cfs (some (.obj es)) parent
                  exact ⟨fuel + 1, by simp only [fillTypeRef, hl, he, hc, hlc]; exact hf⟩
                | scalar _ =>
                  exact ⟨1, by simp only [fillTypeRef, hl, he, hc, hlc]; intro hcc; cases hcc⟩
                | enum _ _ =>
                  exact ⟨1, by simp only [fillTypeRef, hl, he, hc, hlc]; intro hcc; cases hcc⟩
                | interface _ _ _ =>
                  exact ⟨1, by simp only [fillTypeRef, hl, he, hc, hlc]; intro hcc; cases hcc⟩
                | union _ _ =>
                  exact ⟨1, by simp only [fillTypeRef, hl, he, hc, hlc]; intro hcc; cases hcc⟩
          | arr its =>
            cases hc : chooseConcrete ctx.rand nm ms (some (.arr its)) with
            | error e =>
              refine ⟨1, ?_⟩
              simp only [fillTypeRef, hl, he, hc]
              intro hcon
              cases hcon
              exact chooseConcrete_ne_outOfFuel ctx.rand nm ms (some (.arr its)) hc
            | ok c =>
              cases hlc : ctx.schema.lookupType c with
              | none =>
                exact ⟨1, by simp only [fillTypeRef, hl, he, hc, hlc]; intro hcc; cases hcc⟩
              | some cst =>
                cases cst with
                | object cn cfs =>
                  obtain ⟨fuel, hf⟩ := fillObjectV_adequate ctx hs cn cfs (some (.arr its)) parent
                  exact ⟨fuel + 1, by simp only [fillTypeRef, hl, he, hc, hlc]; exact hf⟩
                | scalar _ =>
                  exact ⟨1, by simp only [fillTypeRef, hl, he, hc, hlc]; intro hcc; cases hcc⟩
                | enum _ _ =>
                  exact ⟨1, by simp only [fillTypeRef, hl, he, hc, hlc]; intro hcc; cases hcc⟩
                | interface _ _ _ =>
                  exact ⟨1, by simp only [fillTypeRef, hl, he, hc, hlc]; intro hcc; cases hcc⟩
                | union _ _ =>
                  exact ⟨1, by simp only [fillTypeRef, hl, he, hc, hlc]; intro hcc; cases hcc⟩
          | func q =>
            cases hc : chooseConcrete ctx.rand nm ms (some (.func q)) with
            | error e =>
              refine ⟨1, ?_⟩
              simp only [fillTypeRef, hl, he, hc]
              intro hcon
              cases hcon
              exact chooseConcrete_ne_outOfFuel ctx.rand nm ms (some (.func q)) hc
            | ok c =>
              cases hlc : ctx.schema.lookupType c with
              | none =>
                exact ⟨1, by simp only [fillTypeRef, hl, he, hc, hlc]; intro hcc; cases hcc⟩
              | some cst =>
                cases cst with
                | object cn cfs =>
                  obtain ⟨fuel, hf⟩ := fillObjectV_adequate ctx hs cn cfs (some (.func q)) parent
                  exact ⟨fuel + 1, by simp only [fillTypeRef, hl, he, hc, hlc]; exact hf⟩
                | scalar _ =>
                  exact ⟨1, by simp only [fillTypeRef, hl, he, hc, hlc]; intro hcc; cases hcc⟩
                | enum _ _ =>
                  exact ⟨1, by simp only [fillTypeRef, hl, he, hc, hlc]; intro hcc; cases hcc⟩
                | interface _ _ _ =>
                  exact ⟨1, by simp only [fillTypeRef, hl, he, hc, hlc]; intro hcc; cases hcc⟩
                | union _ _ =>
                  exact ⟨1, by simp only [fillTypeRef, hl, he, hc, hlc]; intro hcc; cases hcc⟩
      | union nm ms =>
        cases he : entry.map resolveThunks with
        | none =>
          cases hc : chooseConcrete ctx.rand nm ms ((none : Option Override)) with
          | error e =>
            refine ⟨1, ?_⟩
            simp only [fillTypeRef, hl, he, hc]
            intro hcon
            cases hcon
            exact chooseConcrete_ne_outOfFuel ctx.rand nm ms ((none : Option Override)) hc
          | ok c =>
            cases hlc : ctx.schema.lookupType c with
            | none =>
              exact ⟨1, by simp only [fillTypeRef, hl, he, hc, hlc]; intro hcc; cases hcc⟩
            | some cst =>
              cases cst with
              | object cn cfs =>
                obtain ⟨fuel, hf⟩ := fillObjectV_adequate ctx hs cn cfs ((none : Option Override)) parent
                exact ⟨fuel + 1, by simp only [fillTypeRef, hl, he, hc, hlc]; exact hf⟩
              | scalar _ =>
                exact ⟨1, by simp only [fillTypeRef, hl, he, hc, hlc]; intro hcc; cases hcc⟩
              | enum _ _ =>
                exact ⟨1, by simp only [fillTypeRef, hl, he, hc, hlc]; intro hcc; cases hcc⟩
              | interface _ _ _ =>
                exact ⟨1, by simp only [fillTypeRef, hl, he, hc, hlc]; intro hcc; cases hcc⟩
              | union _ _ =>
                exact ⟨1, by simp only [fillTypeRef, hl, he, hc, hlc]; intro hcc; cases hcc⟩
        | some p =>
          cases p with
          | val v =>
            exact ⟨1, by simp only [fillTypeRef, hl, he]; intro hcc; cases hcc⟩
          | obj es =>
            cases hc : chooseConcrete ctx.rand nm ms (some (.obj es)) with
            | error e =>
              refine ⟨1, ?_⟩
              simp only [fillTypeRef, hl, he, hc]
              intro hcon
              cases hcon
              exact chooseConcrete_ne_outOfFuel ctx.rand nm ms (some (.obj es)) hc
            | ok c =>
              cases hlc : ctx.schema.lookupType c with
              | none =>
                exact ⟨1, by simp only [fillTypeRef, hl, he, hc, hlc]; intro hcc; cases hcc⟩
              | some cst =>
                cases cst with
                | object cn cfs =>
                  obtain ⟨fuel, hf⟩ := fillObjectV_adequate ctx hs cn cfs (some (.obj es)) parent
                  exact ⟨fuel + 1, by simp only [fillTypeRef, hl, he, hc, hlc]; exact hf⟩
                | scalar _ =>
                  exact ⟨1, by simp only [fillTypeRef, hl, he, hc, hlc]; intro hcc; cases hcc⟩
                | enum _ _ =>
                  exact ⟨1, by simp only [fillTypeRef, hl, he, hc, hlc]; intro hcc; cases hcc⟩
                | interface _ _ _ =>
                  exact ⟨1, by simp only [fillTypeRef, hl, he, hc, hlc]; intro hcc; cases hcc⟩
                | union _ _ =>
                  exact ⟨1, by simp only [fillTypeRef, hl, he, hc, hlc]; intro hcc; cases hcc⟩
          | arr its =>
            cases hc : chooseConcrete ctx.rand nm ms (some (.arr its)) with
            | error e =>
              refine ⟨1, ?_⟩
              simp only [fillTypeRef, hl, he, hc]
              intro hcon
              cases hcon
              exact chooseConcrete_ne_outOfFuel ctx.rand nm ms (some (.arr its)) hc
            | ok c =>
              cases hlc : ctx.schema.lookupType c with
              | none =>
                exact ⟨1, by simp only [fillTypeRef, hl, he, hc, hlc]; intro hcc; cases hcc⟩
              | some cst =>
                cases cst with
                | object cn cfs =>
                  obtain ⟨fuel, hf⟩ := fillObjectV_adequate ctx hs cn cfs (some (.arr its)) parent
                  exact ⟨fuel + 1, by simp only [fillTypeRef, hl, he, hc, hlc]; exact hf⟩
                | scalar _ =>
                  exact ⟨1, by simp only [fillTypeRef, hl, he, hc, hlc]; intro hcc; cases hcc⟩
                | enum _ _ =>
                  exact ⟨1, by simp only [fillTypeRef, hl, he, hc, hlc]; intro hcc; cases hcc⟩
                | interface _ _ _ =>
                  exact ⟨1, by simp only [fillTypeRef, hl, he, hc, hlc]; intro hcc; cases hcc⟩
                | union _ _ =>
                  exact ⟨1, by simp only [fillTypeRef, hl, he, hc, hlc]; intro hcc; cases hcc⟩
          | func q =>
            cases hc : chooseConcrete ctx.rand nm ms (some (.func q)) with
            | error e =>
              refine ⟨1, ?_⟩
              simp only [fillTypeRef, hl, he, hc]
              intro hcon
              cases hcon
              exact chooseConcrete_ne_outOfFuel ctx.rand nm ms (some (.func q)) hc
            | ok c =>
              cases hlc : ctx.schema.lookupType c with
              | none =>
                exact ⟨1, by simp only [fillTypeRef, hl, he, hc, hlc]; intro hcc; cases hcc⟩
              | some cst =>
                cases cst with
                | object cn cfs =>
                  obtain ⟨fuel, hf⟩ := fillObjectV_adequate ctx hs cn cfs (some (.func q)) parent
                  exact ⟨fuel + 1, by simp only [fillTypeRef, hl, he, hc, hlc]; exact hf⟩
                | scalar _ =>
                  exact ⟨1, by simp only [fillTypeRef, hl, he, hc, hlc]; intro hcc; cases hcc⟩
                | enum _ _ =>
                  exact ⟨1, by simp only [fillTypeRef, hl, he, hc, hlc]; intro hcc; cases hcc⟩
                | interface _ _ _ =>
                  exact ⟨1, by simp only [fillTypeRef, hl, he, hc, hlc]; intro hcc; cases hcc⟩
                | union _ _ =>
                  exact ⟨1, by simp only [fillTypeRef, hl, he, hc, hlc]; intro hcc; cases hcc⟩

theorem fillSel_adequate (ctx : Context) :
    ∀ (N : Nat) (s : Selection), sizeOf s ≤ N → ∀ t ov ro,
      ∃ fuel, fillSel ctx fuel t s ov ro ≠ .error .outOfFuel := by
  intro N
  induction N with
  | zero =>
    intro s hs
    cases s with
    | field n al sub => simp at hs
    | fragment cond sub => simp at hs
  | succ N ih =>
    intro s hs t ov ro
    cases s with
    | fragment cond sub =>
      cases hm : matchesCondition ctx.schema t.name cond with
      | false =>
        refine ⟨1, ?_⟩
        simp only [fillSel, hm, Bool.false_eq_true, if_false]
        intro hc
        cases hc
      | true =>
        have hsub : ∀ s' ∈ sub, ∀ t' ov' ro', ∃ fuel,
            fillSel ctx fuel t' s' ov' ro' ≠ .error .outOfFuel := by
          intro s' hs' t' ov' ro'
          refine ih s' ?_ t' ov' ro'
          have h1 : sizeOf s' < sizeOf sub := List.sizeOf_lt_of_mem hs'
          have h2 : 1 + sizeOf cond + sizeOf sub ≤ N + 1 := by
            simpa using hs
          omega
        obtain ⟨fuel, hf⟩ := exceptMap_adequate
          (fun a _ f f' hle hne => fillSel_mono_le ctx hle t a ov ro hne)
          (fun a ha => hsub a ha t ov ro)
        refine ⟨fuel + 1, ?_⟩
        simp only [fillSel, hm, if_true]
        cases hmm : exceptMap (fun s => fillSel ctx fuel t s ov ro) sub with
        | error e =>
          intro hc
          rw [hmm] at hf
          cases hc
          exact hf rfl
        | ok ess => intro hc; cases hc
    | field n al sub =>
      cases hn : n == "__typename" with
      | true =>
        exact ⟨1, by simp only [fillSel, hn, if_true]; intro hc; cases hc⟩
      | false =>
        cases htr : t.fieldType n with
        | none =>
          refine ⟨1, ?_⟩
          simp only [fillSel, hn, Bool.false_eq_true, if_false, htr]
          intro hc
          cases hc
        | some tr =>
          have hsub : ∀ s' ∈ sub, ∀ t' ov' ro', ∃ fuel,
              fillSel ctx fuel t' s' ov' ro' ≠ .error .outOfFuel := by
            intro s' hs' t' ov' ro'
            refine ih s' ?_ t' ov' ro'
            have h1 : sizeOf s' < sizeOf sub := List.sizeOf_lt_of_mem hs'
            have h2 : 1 + sizeOf n + sizeOf al + sizeOf sub ≤ N + 1 := by
              simpa using hs
            omega
          obtain ⟨fuel, hf⟩ := fillTypeRef_adequate ctx hsub tr t
            (entryChoice ov ro (al.getD n))
          refine ⟨fuel + 1, ?_⟩
          simp only [fillSel, hn, Bool.false_eq_true, if_false, htr]
          cases hft : fillTypeRef ctx fuel t tr sub (entryChoice ov ro (al.getD n)) with
          | error e =>
            intro hc
            rw [hft] at hf
            cases hc
            exact hf rfl
          | ok v => intro hc; cases hc

theorem fillDocument_adequate (ctx : Context) (sels : List Selection)
    (p : Option Override) :
    ∃ fuel, fillDocument ctx fuel sels p ≠ .error .outOfFuel := by
  unfold fillDocument
  cases hq : ctx.schema.lookupType ctx.schema.queryTypeName with
  | none => exact ⟨0, by intro hc; cases hc⟩
  | some st =>
    cases st with
    | object nm fs =>
      exact fillObjectV_adequate ctx
        (fun s _ t ov ro => fillSel_adequate ctx (sizeOf s) s (Nat.le_refl _) t ov ro)
        nm fs (p.map resolveThunks) (.object nm fs)
    | scalar _ => exact ⟨0, by intro hc; cases hc⟩
    | enum _ _ => exact ⟨0, by intro hc; cases hc⟩
    | interface _ _ _ => exact ⟨0, by intro hc; cases hc⟩
    | union _ _ => exact ⟨0, by intro hc; cases hc⟩

/-! ## Pure facts about overrides -/

theorem resolveThunks_not_func : ∀ (p q : Override), resolveThunks p ≠ .func q
  | .val v, q => by intro hc; cases hc
  | .obj es, q => by intro hc; cases hc
  | .arr its, q => by intro hc; cases hc
  | .func body, q => by
    simpa only [resolveThunks] using resolveThunks_not_func body q

theorem resolveThunks_idem :
    ∀ p : Override, resolveThunks (resolveThunks p) = resolveThunks p
  | .val v => rfl
  | .obj es => rfl
  | .arr its => rfl
  | .func body => by
    simpa only [resolveThunks] using resolveThunks_idem body

theorem overrideToValue_resolveThunks :
    ∀ p : Override, overrideToValue (resolveThunks p) = overrideToValue p
  | .val v => rfl
  | .obj es => rfl
  | .arr its => rfl
  | .func body => by
    simpa only [resolveThunks, overrideToValue] using overrideToValue_resolveThunks body

/-! ## Inversion lemmas along a successful fill -/

theorem fillObjectV_val_ok {ctx : Context} {fuel : Nat} {nm : String}
    {fs : List FieldDef} {sels : List Selection} {v : Value}
    {parent : SchemaType} {w : Value}
    (h : fillObjectV ctx fuel nm fs sels (some (.val v)) parent = .ok w) :
    w = v := by
  cases fuel with
  | zero => cases h
  | succ fuel =>
    simp only [fillObjectV] at h
    cases h
    rfl

theorem fillTypeRef_val_ok {ctx : Context} {parent : SchemaType} :
    ∀ {fuel : Nat} {tr : TypeRef} {sels : List Selection} {p : Override}
      {v w : Value}, resolveThunks p = .val v →
      fillTypeRef ctx fuel parent tr sels (some p) = .ok w → w = v := by
  intro fuel
  induction fuel with
  | zero => intro tr sels p v w _ h; cases h
  | succ fuel ih =>
    intro tr sels p v w hp h
    cases tr with
    | nonNull t =>
      simp only [fillTypeRef, Option.map] at h
      rw [hp] at h
      exact ih (by rfl) h
    | listOf t =>
      simp only [fillTypeRef, Option.map] at h
      rw [hp] at h
      simp only [] at h
      rw [overrideToValue] at h
      cases h
      rfl
    | named n =>
      simp only [fillTypeRef, Option.map] at h
      rw [hp] at h
      cases hl : ctx.schema.lookupType n with
      | none =>
        rw [hl] at h
        simp only [fillScalarLeaf, overrideToValue] at h
        cases h
        rfl
      | some st =>
        rw [hl] at h
        cases st with
        | scalar _ =>
          simp only [fillScalarLeaf, overrideToValue] at h
          cases h
          rfl
        | enum _ values =>
          simp only [fillEnumLeaf, overrideToValue] at h
          cases h
          rfl
        | object onm ofs => exact fillObjectV_val_ok h
        | interface anm ifs ms =>
          simp only [] at h
          cases h
          rfl
        | union anm ms =>
          simp only [] at h
          cases h
          rfl

theorem fillObjectV_tree_ok {ctx : Context} {fuel : Nat} {nm : String}
    {fs : List FieldDef} {sels : List Selection} {es : List (String × Override)}
    {parent : SchemaType} {w : Value}
    (h : fillObjectV ctx fuel nm fs sels (some (.obj es)) parent = .ok w) :
    ∃ fuel' ess, exceptMap (fun s => fillSel ctx fuel' (.object nm fs) s es
        (resolverEntries ctx nm fs parent)) sels = .ok ess ∧
      w = .vobject (withTypename ctx nm ess.flatten) := by
  cases fuel with
  | zero => cases h
  | succ fuel =>
    simp only [fillObjectV] at h
    revert h
    cases hm : exceptMap (fun s => fillSel ctx fuel (.object nm fs) s es
        (resolverEntries ctx nm fs parent)) sels with
    | error e => intro h; cases h
    | ok ess =>
      intro h
      cases h
      exact ⟨fuel, ess, hm, rfl⟩

theorem fillObjectV_none_ok {ctx : Context} {fuel : Nat} {nm : String}
    {fs : List FieldDef} {sels : List Selection}
    {parent : SchemaType} {w : Value}
    (h : fillObjectV ctx fuel nm fs sels none parent = .ok w) :
    ∃ fuel' ess, exceptMap (fun s => fillSel ctx fuel' (.object nm fs) s []
        (resolverEntries ctx nm fs parent)) sels = .ok ess ∧
      w = .vobject (withTypename ctx nm ess.flatten) := by
  cases fuel with
  | zero => cases h
  | succ fuel =>
    simp only [fillObjectV] at h
    revert h
    cases hm : exceptMap (fun s => fillSel ctx fuel (.object nm fs) s []
        (resolverEntries ctx nm fs parent)) sels with
    | error e => intro h; cases h
    | ok ess =>
      intro h
      cases h
      exact ⟨fuel, ess, hm, rfl⟩

/-! ## The response keys of a successful fill are exactly the selected
keys: fields selected directly plus fields of matching fragments. -/

theorem fill_keys (ctx : Context) :
    ∀ fuel : Nat, ∀ t : SchemaType, ∀ sels : List Selection,
      ∀ ov ro : List (String × Override), ∀ ess : List (List (String × Value)),
      exceptMap (fun s => fillSel ctx fuel t s ov ro) sels = .ok ess →
      ess.flatten.map Prod.fst = selKeyList ctx.schema t sels := by
  intro fuel
  induction fuel with
  | zero =>
    intro t sels ov ro ess h
    cases sels with
    | nil =>
      cases h
      rfl
    | cons s rest =>
      obtain ⟨b, bs', rfl, hb, _⟩ := exceptMap_cons_ok h
      simp only [fillSel] at hb
      cases hb
  | succ fuel ih =>
    intro t sels ov ro ess h
    induction sels generalizing ess with
    | nil =>
      cases h
      rfl
    | cons s rest ihrest =>
      obtain ⟨b, bs', rfl, hb, hrest⟩ := exceptMap_cons_ok h
      have hkeys_rest := ihrest bs' hrest
      cases s with
      | fragment cond sub =>
        cases hm : matchesCondition ctx.schema t.name cond with
        | false =>
          simp only [fillSel, hm, Bool.false_eq_true, if_false] at hb
          cases hb
          simp [selKeyList, selKeyOne, hm, hkeys_rest]
        | true =>
          simp only [fillSel, hm, if_true] at hb
          revert hb
          cases hsub : exceptMap (fun s => fillSel ctx fuel t s ov ro) sub with
          | error e => intro hb; cases hb
          | ok ess' =>
            intro hb
            cases hb
            have hkeys_sub := ih t sub ov ro ess' hsub
            simp [selKeyList, selKeyOne, hm, hkeys_sub, hkeys_rest]
      | field n al sub =>
        cases hn : n == "__typename" with
        | true =>
          simp only [fillSel, hn, if_true] at hb
          cases hb
          simp [selKeyList, selKeyOne, hn, hkeys_rest]
        | false =>
          cases htr : t.fieldType n with
          | none =>
            simp only [fillSel, hn, Bool.false_eq_true, if_false, htr] at hb
            cases hb
            simp [selKeyList, selKeyOne, hn, htr, hkeys_rest]
          | some tr =>
            simp only [fillSel, hn, Bool.false_eq_true, if_false, htr] at hb
            revert hb
            cases hv : fillTypeRef ctx fuel t tr sub (entryChoice ov ro (al.getD n)) with
            | error e => intro hb; cases hb
            | ok v =>
              intro hb
              cases hb
              simp [selKeyList, selKeyOne, hn, htr, hkeys_rest]

theorem fillSels_keys {ctx : Context} {fuel : Nat} {t : SchemaType}
    {sels : List Selection} {ov ro : List (String × Override)}
    {es : List (String × Value)}
    (h : fillSels ctx fuel t sels ov ro = .ok es) :
    es.map Prod.fst = selKeyList ctx.schema t sels := by
  unfold fillSels at h
  revert h
  cases hm : exceptMap (fun s => fillSel ctx fuel t s ov ro) sels with
  | error e => intro h; cases h
  | ok ess =>
    intro h
    cases h
    exact fill_keys ctx fuel t sels ov ro ess hm

/-! ## Lookup helpers -/

theorem lookupField_cons_self {k : String} {v : Value} {es : List (String × Value)} :
    lookupField k ((k, v) :: es) = some v := by
  simp [lookupField, List.find?]

theorem lookupField_cons_ne {k k' : String} {v : Value} {es : List (String × Value)}
    (h : k' ≠ k) : lookupField k ((k', v) :: es) = lookupField k es := by
  simp only [lookupField, List.find?]
  have : (k' == k) = false := by
    simp [h]
  rw [this]

theorem lookupField_none_of_not_mem {k : String} :
    ∀ {es : List (String × Value)}, k ∉ es.map Prod.fst →
      lookupField k es = none
  | [], _ => rfl
  | (k', v) :: es, h => by
    have hk : k' ≠ k := by
      intro hc
      exact h (by simp [hc])
    rw [lookupField_cons_ne hk]
    exact lookupField_none_of_not_mem (fun hc => h (by simp [hc]))

theorem lookupField_append_left {k : String} {v : Value} :
    ∀ {e₁ e₂ : List (String × Value)}, lookupField k e₁ = some v →
      lookupField k (e₁ ++ e₂) = some v
  | [], _, h => by cases h
  | (k', v') :: e₁, e₂, h => by
    by_cases hk : k' = k
    · subst hk
      rw [lookupField_cons_self] at h
      cases h
      exact lookupField_cons_self
    · rw [lookupField_cons_ne hk] at h
      rw [List.cons_append, lookupField_cons_ne hk]
      exact lookupField_append_left h

theorem lookupField_append_right {k : String} :
    ∀ {e₁ e₂ : List (String × Value)}, lookupField k e₁ = none →
      lookupField k (e₁ ++ e₂) = lookupField k e₂
  | [], _, _ => rfl
  | (k', v') :: e₁, e₂, h => by
    by_cases hk : k' = k
    · subst hk
      rw [lookupField_cons_self] at h
      cases h
    · rw [lookupField_cons_ne hk] at h
      rw [List.cons_append, lookupField_cons_ne hk]
      exact lookupField_append_right h

theorem lookupField_mem {k : String} {v : Value} :
    ∀ {es : List (String × Value)}, lookupField k es = some v → (k, v) ∈ es
  | [], h => by cases h
  | (k', v') :: es, h => by
    by_cases hk : k' = k
    · subst hk
      rw [lookupField_cons_self] at h
      cases h
      exact List.mem_cons_self _ _
    · rw [lookupField_cons_ne hk] at h
      exact List.mem_cons_of_mem _ (lookupField_mem h)

theorem lookupField_isSome_of_mem_keys {k : String} :
    ∀ {es : List (String × Value)}, k ∈ es.map Prod.fst →
      ∃ v, lookupField k es = some v
  | [], h => by cases h
  | (k', v') :: es, h => by
    by_cases hk : k' = k
    · subst hk
      exact ⟨v', lookupField_cons_self⟩
    · rw [lookupField_cons_ne hk]
      refine lookupField_isSome_of_mem_keys ?_
      rcases List.mem_map.mp h with ⟨⟨a, b⟩, hab, hfst⟩
      rcases List.mem_cons.mp hab with heq | hmem
      · cases heq
        simp at hfst
        exact absurd hfst hk
      · exact List.mem_map.mpr ⟨(a, b), hmem, hfst⟩

/-! ## Decomposing a successful fill of a selection list around one node -/

theorem fillSels_split {ctx : Context} {fuel : Nat} {t : SchemaType}
    {pre post : List Selection} {s : Selection}
    {ov ro : List (String × Override)} {es : List (String × Value)}
    (h : fillSels ctx fuel t (pre ++ s :: post) ov ro = .ok es) :
    ∃ e₁ b e₃, es = e₁ ++ b ++ e₃ ∧
      fillSels ctx fuel t pre ov ro = .ok e₁ ∧
      fillSel ctx fuel t s ov ro = .ok b ∧
      fillSels ctx fuel t post ov ro = .ok e₃ := by
  unfold fillSels at h ⊢
  revert h
  cases hm : exceptMap (fun s => fillSel ctx fuel t s ov ro) (pre ++ s :: post) with
  | error e => intro h; cases h
  | ok ess =>
    intro h
    cases h
    obtain ⟨b₁, b₂, rfl, h₁, h₂⟩ := exceptMap_append_ok hm
    obtain ⟨b, b₃, rfl, hb, h₃⟩ := exceptMap_cons_ok h₂
    refine ⟨b₁.flatten, b, b₃.flatten, ?_, ?_, hb, ?_⟩
    · simp
    · rw [h₁]
    · rw [h₃]

/-! ## Every `__typename`-keyed output entry names the concrete type in
scope, provided no ordinary field is aliased to that key. -/

theorem fill_typename_entries (ctx : Context) :
    ∀ fuel : Nat, ∀ t : SchemaType, ∀ sels : List Selection,
      ∀ ov ro : List (String × Override), ∀ ess : List (List (String × Value)),
      noTypenameClash ctx.schema t sels = true →
      exceptMap (fun s => fillSel ctx fuel t s ov ro) sels = .ok ess →
      ∀ v : Value, ("__typename", v) ∈ ess.flatten → v = .vstring t.name := by
  intro fuel
  induction fuel with
  | zero =>
    intro t sels ov ro ess _ h v hv
    cases sels with
    | nil =>
      cases h
      simp at hv
    | cons s rest =>
      obtain ⟨b, bs', rfl, hb, _⟩ := exceptMap_cons_ok h
      simp only [fillSel] at hb
      cases hb
  | succ fuel ih =>
    intro t sels ov ro ess hcl h v hv
    induction sels generalizing ess with
    | nil =>
      cases h
      simp at hv
    | cons s rest ihrest =>
      obtain ⟨b, bs', rfl, hb, hrest⟩ := exceptMap_cons_ok h
      have hclone : noClashOne ctx.schema t s = true := by
        simp only [noTypenameClash, Bool.and_eq_true] at hcl
        exact hcl.1
      have hclrest : noTypenameClash ctx.schema t rest = true := by
        simp only [noTypenameClash, Bool.and_eq_true] at hcl
        exact hcl.2
      rw [List.flatten_cons, List.mem_append] at hv
      rcases hv with hvb | hvrest
      · cases s with
        | fragment cond sub =>
          cases hm : matchesCondition ctx.schema t.name cond with
          | false =>
            simp only [fillSel, hm, Bool.false_eq_true, if_false] at hb
            cases hb
            simp at hvb
          | true =>
            simp only [fillSel, hm, if_true] at hb
            revert hb
            cases hsub : exceptMap (fun s => fillSel ctx fuel t s ov ro) sub with
            | error e => intro hb; cases hb
            | ok ess' =>
              intro hb
              cases hb
              have hclsub : noTypenameClash ctx.schema t sub = true := by
                simpa [noClashOne] using hclone
              exact ih t sub ov ro ess' hclsub hsub v hvb
        | field n al sub =>
          cases hn : n == "__typename" with
          | true =>
            simp only [fillSel, hn, if_true] at hb
            cases hb
            have heq := List.mem_singleton.mp hvb
            exact congrArg Prod.snd heq
          | false =>
            cases htr : t.fieldType n with
            | none =>
              simp only [fillSel, hn, Bool.false_eq_true, if_false, htr] at hb
              cases hb
              simp at hvb
            | some tr =>
              simp only [fillSel, hn, Bool.false_eq_true, if_false, htr] at hb
              revert hb
              cases hvv : fillTypeRef ctx fuel t tr sub (entryChoice ov ro (al.getD n)) with
              | error e => intro hb; cases hb
              | ok vv =>
                intro hb
                cases hb
                have heq := List.mem_singleton.mp hvb
                have halr : al.getD n = "__typename" :=
                  (congrArg Prod.fst heq).symm
                exfalso
                simp only [noClashOne, hn, Bool.or_false, bne_iff_ne] at hclone
                exact hclone halr
      · exact ihrest bs' hclrest hrest hvrest

/-! ## Thunk erasure: filling depends only on the thunk-free normal
form of the override data. -/

mutual
theorem stripFuncs_idem : ∀ p : Override, stripFuncs (stripFuncs p) = stripFuncs p
  | .val v => rfl
  | .obj es => by
    simp only [stripFuncs]
    rw [stripFuncsEntries_idem es]
  | .arr its => by
    simp only [stripFuncs]
    rw [stripFuncsItems_idem its]
  | .func q => stripFuncs_idem q

theorem stripFuncsEntries_idem :
    ∀ es : List (String × Override),
      stripFuncsEntries (stripFuncsEntries es) = stripFuncsEntries es
  | [] => rfl
  | (k, p) :: rest => by
    simp only [stripFuncsEntries]
    rw [stripFuncs_idem p, stripFuncsEntries_idem rest]

theorem stripFuncsItems_idem :
    ∀ its : List (Option Override),
      stripFuncsItems (stripFuncsItems its) = stripFuncsItems its
  | [] => rfl
  | none :: rest => by
    simp only [stripFuncsItems]
    rw [stripFuncsItems_idem rest]
  | some p :: rest => by
    simp only [stripFuncsItems]
    rw [stripFuncs_idem p, stripFuncsItems_idem rest]
end

theorem resolveThunks_strip :
    ∀ p : Override, resolveThunks (stripFuncs p) = stripFuncs (resolveThunks p)
  | .val v => rfl
  | .obj es => rfl
  | .arr its => rfl
  | .func q => resolveThunks_strip q

mutual
theorem overrideToValue_strip :
    ∀ p : Override, overrideToValue (stripFuncs p) = overrideToValue p
  | .val v => rfl
  | .obj es => by
    simp only [stripFuncs, overrideToValue]
    rw [overrideEntriesToValue_strip es]
  | .arr its => by
    simp only [stripFuncs, overrideToValue]
    rw [overrideItemsToValue_strip its]
  | .func q => overrideToValue_strip q

theorem overrideEntriesToValue_strip :
    ∀ es : List (String × Override),
      overrideEntriesToValue (stripFuncsEntries es) = overrideEntriesToValue es
  | [] => rfl
  | (k, p) :: rest => by
    simp only [stripFuncsEntries, overrideEntriesToValue]
    rw [overrideToValue_strip p, overrideEntriesToValue_strip rest]

theorem overrideItemsToValue_strip :
    ∀ its : List (Option Override),
      overrideItemsToValue (stripFuncsItems its) = overrideItemsToValue its
  | [] => rfl
  | none :: rest => by
    simp only [stripFuncsItems, overrideItemsToValue]
    rw [overrideItemsToValue_strip rest]
  | some p :: rest => by
    simp only [stripFuncsItems, overrideItemsToValue]
    rw [overrideToValue_strip p, overrideItemsToValue_strip rest]
end

theorem lookupEntry_strip (k : String) :
    ∀ es : List (String × Override),
      lookupEntry k (stripFuncsEntries es) = (lookupEntry k es).map stripFuncs
  | [] => rfl
  | (k', p) :: rest => by
    by_cases hk : k' = k
    · subst hk
      simp [lookupEntry, stripFuncsEntries, List.find?]
    · have hkb : (k' == k) = false := by simp [hk]
      simp only [lookupEntry, stripFuncsEntries, List.find?, hkb]
      exact lookupEntry_strip k rest

theorem entryChoice_strip (ov ro : List (String × Override)) (k : String) :
    entryChoice (stripFuncsEntries ov) (stripFuncsEntries ro) k =
      (entryChoice ov ro k).map stripFuncs := by
  unfold entryChoice
  rw [lookupEntry_strip, lookupEntry_strip]
  cases lookupEntry k ov with
  | none => rfl
  | some p => rfl

theorem typenameFrom_strip (es : List (String × Override)) :
    typenameFrom (stripFuncsEntries es) = typenameFrom es := by
  unfold typenameFrom
  rw [lookupEntry_strip]
  cases he : lookupEntry "__typename" es with
  | none => rfl
  | some p =>
    simp only [Option.map]
    rw [resolveThunks_strip]
    cases hres : resolveThunks p with
    | val v =>
      cases v <;> rfl
    | obj es' => rfl
    | arr its => rfl
    | func q => exact absurd hres (resolveThunks_not_func p q)

theorem chooseConcrete_strip (r : RandomSource) (a : String) (ms : List String) :
    ∀ o : Option Override, (∀ q, o ≠ some (.func q)) →
      chooseConcrete r a ms (o.map stripFuncs) = chooseConcrete r a ms o
  | none, _ => rfl
  | some (.val v), _ => rfl
  | some (.arr its), _ => rfl
  | some (.func q), h => absurd rfl (h q)
  | some (.obj es), _ => by
    simp only [Option.map, stripFuncs, chooseConcrete]
    rw [typenameFrom_strip]

theorem fillScalarLeaf_strip (ctx : Context) (n : String) (parent : SchemaType) :
    ∀ o : Option Override,
      fillScalarLeaf ctx n parent (o.map stripFuncs) = fillScalarLeaf ctx n parent o
  | none => rfl
  | some p => by
    simp only [Option.map, fillScalarLeaf]
    rw [overrideToValue_strip]

theorem fillEnumLeaf_strip (ctx : Context) (n : String) (values : List String)
    (parent : SchemaType) :
    ∀ o : Option Override,
      fillEnumLeaf ctx n values parent (o.map stripFuncs) =
        fillEnumLeaf ctx n values parent o
  | none => rfl
  | some p => by
    simp only [Option.map, fillEnumLeaf]
    rw [overrideToValue_strip]

theorem option_map_resolve_strip (o : Option Override) :
    (o.map stripFuncs).map resolveThunks = (o.map resolveThunks).map stripFuncs := by
  cases o with
  | none => rfl
  | some p =>
    simp only [Option.map]
    rw [resolveThunks_strip]

theorem stripFuncsItems_eq_map :
    ∀ its : List (Option Override),
      stripFuncsItems its = its.map (fun o => o.map stripFuncs)
  | [] => rfl
  | none :: rest => by
    simp only [stripFuncsItems, List.map]
    rw [stripFuncsItems_eq_map rest]
    rfl
  | some p :: rest => by
    simp only [stripFuncsItems, List.map]
    rw [stripFuncsItems_eq_map rest]
    rfl

theorem exceptMap_congr {α β ε : Type} {f g : α → Except ε β} :
    ∀ {l : List α}, (∀ a ∈ l, f a = g a) → exceptMap f l = exceptMap g l
  | [], _ => rfl
  | a :: rest, h => by
    simp only [exceptMap, h a (by simp)]
    rw [exceptMap_congr (fun a' ha' => h a' (by simp [ha']))]

theorem exceptMap_map {α γ β ε : Type} (f : γ → Except ε β) (g : α → γ) :
    ∀ l : List α, exceptMap f (l.map g) = exceptMap (fun a => f (g a)) l
  | [] => rfl
  | a :: rest => by
    simp only [List.map, exceptMap]
    rw [exceptMap_map f g rest]

theorem fill_strip (ctx : Context) :
    ∀ fuel : Nat,
      (∀ t s ov ro,
        fillSel ctx fuel t s (stripFuncsEntries ov) (stripFuncsEntries ro) =
          fillSel ctx fuel t s ov ro) ∧
      (∀ parent tr sels entry,
        fillTypeRef ctx fuel parent tr sels (entry.map stripFuncs) =
          fillTypeRef ctx fuel parent tr sels entry) ∧
      (∀ nm fs sels entry parent, (∀ q, entry ≠ some (.func q)) →
        fillObjectV ctx fuel nm fs sels (entry.map stripFuncs) parent =
          fillObjectV ctx fuel nm fs sels entry parent) := by
  intro fuel
  induction fuel with
  | zero =>
    exact ⟨fun _ _ _ _ => rfl, fun _ _ _ _ => rfl, fun _ _ _ _ _ _ => rfl⟩
  | succ fuel ih =>
    obtain ⟨ihSel, ihTr, ihObj⟩ := ih
    have ihSel' : ∀ t s ov ro,
        fillSel ctx fuel t s (stripFuncsEntries ov) ro = fillSel ctx fuel t s ov ro := by
      intro t s ov ro
      have h1 := ihSel t s (stripFuncsEntries ov) ro
      rw [stripFuncsEntries_idem] at h1
      exact h1.symm.trans (ihSel t s ov ro)
    refine ⟨?_, ?_, ?_⟩
    · intro t s ov ro
      cases s with
      | fragment cond sub =>
        simp only [fillSel]
        cases hm : matchesCondition ctx.schema t.name cond with
        | false => rfl
        | true =>
          simp only [if_true]
          rw [exceptMap_congr (fun a _ => ihSel t a ov ro)]
      | field n al sub =>
        simp only [fillSel]
        cases hn : n == "__typename" with
        | true => rfl
        | false =>
          simp only [Bool.false_eq_true, if_false]
          cases htr : t.fieldType n with
          | none => rfl
          | some tr =>
            simp only []
            rw [entryChoice_strip, ihTr]
    · intro parent tr sels entry
      cases tr with
      | nonNull t =>
        simp only [fillTypeRef]
        rw [option_map_resolve_strip]
        exact ihTr parent t sels (entry.map resolveThunks)
      | listOf t =>
        simp only [fillTypeRef]
        rw [option_map_resolve_strip]
        cases he : entry.map resolveThunks with
        | none => rfl
        | some p =>
          cases p with
          | val v => rfl
          | func q =>
            cases entry with
            | none => cases he
            | some x =>
              exact absurd (Option.some.inj he) (resolveThunks_not_func x q)
          | obj es =>
            simp only [Option.map, stripFuncs]
            have hov := overrideToValue_strip (.obj es)
            simp only [stripFuncs] at hov
            rw [hov]
          | arr items =>
            simp only [Option.map, stripFuncs]
            rw [stripFuncsItems_eq_map, exceptMap_map]
            rw [exceptMap_congr (fun a _ => ihTr parent t sels a)]
      | named n =>
        simp only [fillTypeRef]
        rw [option_map_resolve_strip]
        cases hl : ctx.schema.lookupType n with
        | none => exact congrArg Except.ok (fillScalarLeaf_strip ctx n parent _)
        | some st =>
          cases st with
          | scalar _ => exact congrArg Except.ok (fillScalarLeaf_strip ctx n parent _)
          | enum _ values =>
            exact congrArg Except.ok (fillEnumLeaf_strip ctx n values parent _)
          | object onm ofs =>
            refine ihObj onm ofs sels (entry.map resolveThunks) parent ?_
            intro q hc
            cases entry with
            | none => cases hc
            | some x => exact resolveThunks_not_func x q (Option.some.inj hc)
          | interface anm ifs ms =>
            have hnf : ∀ q, entry.map resolveThunks ≠ some (.func q) := by
              intro q hc
              cases entry with
              | none => cases hc
              | some x => exact resolveThunks_not_func x q (Option.some.inj hc)
            cases he : entry.map resolveThunks with
            | none => rfl
            | some p =>
              cases p with
              | val v => rfl
              | func q => exact absurd he (hnf q)
              | obj es =>
                simp only [Option.map, stripFuncs]
                have hcc := chooseConcrete_strip ctx.rand anm ms (some (.obj es))
                  (fun q hc => by cases hc)
                simp only [Option.map, stripFuncs] at hcc
                rw [hcc]
                cases hc : chooseConcrete ctx.rand anm ms (some (.obj es)) with
                | error e => rfl
                | ok c =>
                  simp only []
                  cases hlc : ctx.schema.lookupType c with
                  | none => rfl
                  | some cst =>
                    cases cst with
                    | object cn cfs =>
                      have := ihObj cn cfs sels (some (.obj es)) parent
                        (fun q hc => by cases hc)
                      simpa only [Option.map, stripFuncs] using this
                    | scalar _ => rfl
                    | enum _ _ => rfl
                    | interface _ _ _ => rfl
                    | union _ _ => rfl
              | arr its =>
                simp only [Option.map, stripFuncs]
                cases hc : chooseConcrete ctx.rand anm ms (some (.arr its)) with
                | error e =>
                  have hcc := chooseConcrete_strip ctx.rand anm ms (some (.arr its))
                    (fun q hc => by cases hc)
                  simp only [Option.map, stripFuncs] at hcc
                  rw [hcc, hc]
                | ok c =>
                  have hcc := chooseConcrete_strip ctx.rand anm ms (some (.arr its))
                    (fun q hc => by cases hc)
                  simp only [Option.map, stripFuncs] at hcc
                  rw [hcc, hc]
                  simp only []
                  cases hlc : ctx.schema.lookupType c with
                  | none => rfl
                  | some cst =>
                    cases cst with
                    | object cn cfs =>
                      have := ihObj cn cfs sels (some (.arr its)) parent
                        (fun q hc => by cases hc)
                      simpa only [Option.map, stripFuncs] using this
                    | scalar _ => rfl
                    | enum _ _ => rfl
                    | interface _ _ _ => rfl
                    | union _ _ => rfl
          | union anm ms =>
            have hnf : ∀ q, entry.map resolveThunks ≠ some (.func q) := by
              intro q hc
              cases entry with
              | none => cases hc
              | some x => exact resolveThunks_not_func x q (Option.some.inj hc)
            cases he : entry.map resolveThunks with
            | none => rfl
            | some p =>
              cases p with
              | val v => rfl
              | func q => exact absurd he (hnf q)
              | obj es =>
                simp only [Option.map, stripFuncs]
                have hcc := chooseConcrete_strip ctx.rand anm ms (some (.obj es))
                  (fun q hc => by cases hc)
                simp only [Option.map, stripFuncs] at hcc
                rw [hcc]
                cases hc : chooseConcrete ctx.rand anm ms (some (.obj es)) with
                | error e => rfl
                | ok c =>
                  simp only []
                  cases hlc : ctx.schema.lookupType c with
                  | none => rfl
                  | some cst =>
                    cases cst with
                    | object cn cfs =>
                      have := ihObj cn cfs sels (some (.obj es)) parent
                        (fun q hc => by cases hc)
                      simpa only [Option.map, stripFuncs] using this
                    | scalar _ => rfl
                    | enum _ _ => rfl
                    | interface _ _ _ => rfl
                    | union _ _ => rfl
              | arr its =>
                simp only [Option.map, stripFuncs]
                cases hc : chooseConcrete ctx.rand anm ms (some (.arr its)) with
                | error e =>
                  have hcc := chooseConcrete_strip ctx.rand anm ms (some (.arr its))
                    (fun q hc => by cases hc)
                  simp only [Option.map, stripFuncs] at hcc
                  rw [hcc, hc]
                | ok c =>
                  have hcc := chooseConcrete_strip ctx.rand anm ms (some (.arr its))
                    (fun q hc => by cases hc)
                  simp only [Option.map, stripFuncs] at hcc
                  rw [hcc, hc]
                  simp only []
                  cases hlc : ctx.schema.lookupType c with
                  | none => rfl
                  | some cst =>
                    cases cst with
                    | object cn cfs =>
                      have := ihObj cn cfs sels (some (.arr its)) parent
                        (fun q hc => by cases hc)
                      simpa only [Option.map, stripFuncs] using this
                    | scalar _ => rfl
                    | enum _ _ => rfl
                    | interface _ _ _ => rfl
                    | union _ _ => rfl
    · intro nm fs sels entry parent hnf
      cases entry with
      | none => rfl
      | some p =>
        cases p with
        | val v => rfl
        | func q => exact absurd rfl (hnf q)
        | arr its =>
          simp only [Option.map, stripFuncs, fillObjectV]
          have hov := overrideToValue_strip (.arr its)
          simp only [stripFuncs] at hov
          rw [hov]
        | obj es =>
          simp only [Option.map, stripFuncs, fillObjectV]
          rw [exceptMap_congr (fun a _ =>
            (by
              have h1 := ihSel' (.object nm fs) a es (resolverEntries ctx nm fs parent)
              exact h1 :
              fillSel ctx fuel (.object nm fs) a (stripFuncsEntries es)
                  (resolverEntries ctx nm fs parent) =
                fillSel ctx fuel (.object nm fs) a es
                  (resolverEntries ctx nm fs parent)))]

/-! ## A literal override at a path surfaces at that path. -/

theorem fillTypeRef_tree_ok {ctx : Context} {parent : SchemaType} :
    ∀ {fuel : Nat} {tr : TypeRef} {sels : List Selection} {p : Override}
      {es' : List (String × Override)} {bn cn : String} {cfs : List FieldDef}
      {w : Value},
      resolveThunks p = .obj es' → baseName tr = some bn →
      ctx.schema.lookupType bn = some (.object cn cfs) →
      fillTypeRef ctx fuel parent tr sels (some p) = .ok w →
      ∃ fuel' ce, exceptMap (fun s => fillSel ctx fuel' (.object cn cfs) s es'
          (resolverEntries ctx cn cfs parent)) sels = .ok ce ∧
        w = .vobject (withTypename ctx cn ce.flatten) := by
  intro fuel
  induction fuel with
  | zero =>
    intro tr sels p es' bn cn cfs w _ _ _ h
    cases h
  | succ fuel ih =>
    intro tr sels p es' bn cn cfs w hres hbn hlk h
    cases tr with
    | nonNull t =>
      simp only [fillTypeRef, Option.map] at h
      rw [hres] at h
      have hbn' : baseName t = some bn := by
        simpa [baseName] using hbn
      exact ih (show resolveThunks (.obj es') = .obj es' from rfl) hbn' hlk h
    | listOf t => cases hbn
    | named n =>
      have hn : n = bn := by
        simpa [baseName] using hbn
      subst hn
      simp only [fillTypeRef, Option.map] at h
      rw [hres, hlk] at h
      exact fillObjectV_tree_ok h

theorem overrideAt_path_shape {ctx : Context} {t : SchemaType}
    {sels : List Selection} {ov : List (String × Override)}
    {path : List String} {v : Value} (h : OverrideAt ctx t sels ov path v) :
    ∃ k rest, path = k :: rest ∧ k ≠ "__typename" := by
  cases h with
  | leaf _ _ hkt _ _ _ _ => exact ⟨_, [], rfl, hkt⟩
  | step _ _ hkt _ _ _ _ _ _ _ => exact ⟨_, _, rfl, hkt⟩

theorem getPath_withTypename {ctx : Context} {cn : String}
    {X : List (String × Value)} {k' : String} {rest' : List String} {w : Value}
    (h : getPath (.vobject X) (k' :: rest') = some w) :
    getPath (.vobject (withTypename ctx cn X)) (k' :: rest') = some w := by
  unfold withTypename
  by_cases hcond : (ctx.addTypename && (lookupField "__typename" X).isNone) = true
  · rw [if_pos hcond]
    simp only [getPath] at h ⊢
    cases hlf : lookupField k' X with
    | none =>
      rw [hlf] at h
      cases h
    | some u =>
      rw [hlf] at h
      rw [lookupField_append_left hlf]
      exact h
  · rw [if_neg hcond]
    exact h

theorem overrideAt_getPath {ctx : Context} :
    ∀ {t : SchemaType} {sels : List Selection} {ov : List (String × Override)}
      {path : List String} {v : Value}, OverrideAt ctx t sels ov path v →
      ∀ {fuel : Nat} {ro : List (String × Override)} {es : List (String × Value)},
        fillSels ctx fuel t sels ov ro = .ok es →
        getPath (.vobject es) path = some v := by
  intro t sels ov path v h
  induction h with
  | leaf hn hal hkt htr hpre hov hres =>
    rename_i t' pre post sub n al k tr ov' p v'
    intro fuel ro es h
    obtain ⟨e₁, b, e₃, rfl, h₁, hb, h₃⟩ := fillSels_split h
    cases fuel with
    | zero =>
      simp only [fillSel] at hb
      cases hb
    | succ fuel =>
      simp only [fillSel, hn, Bool.false_eq_true, if_false, htr] at hb
      rw [hal] at hb
      have hch : entryChoice ov' ro k = some p := by
        unfold entryChoice
        rw [hov]
      rw [hch] at hb
      revert hb
      cases hw : fillTypeRef ctx fuel t' tr sub (some p) with
      | error e => intro hb; cases hb
      | ok w =>
        intro hb
        cases hb
        have hwv : w = v' := fillTypeRef_val_ok hres hw
        subst hwv
        have hk1 : e₁.map Prod.fst = selKeyList ctx.schema t' pre := fillSels_keys h₁
        have hlf1 : lookupField k e₁ = none := by
          refine lookupField_none_of_not_mem ?_
          rw [hk1]
          exact hpre
        simp only [getPath]
        rw [List.append_assoc, List.singleton_append,
          lookupField_append_right hlf1, lookupField_cons_self]
  | step hn hal hkt htr hpre hov hres hbn hlk hsub ih =>
    rename_i t' pre post sub n al k tr ov' es' p bn cn cfs rest v'
    intro fuel ro es h
    obtain ⟨e₁, b, e₃, rfl, h₁, hb, h₃⟩ := fillSels_split h
    cases fuel with
    | zero =>
      simp only [fillSel] at hb
      cases hb
    | succ fuel =>
      simp only [fillSel, hn, Bool.false_eq_true, if_false, htr] at hb
      rw [hal] at hb
      have hch : entryChoice ov' ro k = some p := by
        unfold entryChoice
        rw [hov]
      rw [hch] at hb
      revert hb
      cases hw : fillTypeRef ctx fuel t' tr sub (some p) with
      | error e => intro hb; cases hb
      | ok w =>
        intro hb
        cases hb
        obtain ⟨fuel', ce, hce, rfl⟩ := fillTypeRef_tree_ok hres hbn hlk hw
        have hfs : fillSels ctx fuel' (.object cn cfs) sub es'
            (resolverEntries ctx cn cfs t') = .ok ce.flatten := by
          unfold fillSels
          rw [hce]
        have hrec := ih hfs
        have hk1 : e₁.map Prod.fst = selKeyList ctx.schema t' pre := fillSels_keys h₁
        have hlf1 : lookupField k e₁ = none := by
          refine lookupField_none_of_not_mem ?_
          rw [hk1]
          exact hpre
        obtain ⟨k', rest', hrw, _⟩ := overrideAt_path_shape hsub
        subst hrw
        simp only [getPath]
        rw [List.append_assoc, List.singleton_append,
          lookupField_append_right hlf1, lookupField_cons_self]
        have := @getPath_withTypename ctx cn ce.flatten k' rest' v' hrec
        simpa [getPath] using this

/-! ## Claim theorems -/

/-- C1: for every field key present in both a resolver-produced entry
list and the caller's Partial Override Tree, the filled output computes
that key's value from the override's entry, and from the resolver's
entry exactly for keys the override omits; a present-but-falsy override
entry (such as `false` or `0`) is present structurally and therefore
never replaced by the resolver's value, and a literal override entry
appears verbatim in the output. -/
theorem claim_C1 {ctx : Context} {fuel : Nat} {t : SchemaType}
    {pre post sub : List Selection} {n : String} {al : Option String}
    {ov ro : List (String × Override)} {es : List (String × Value)}
    {k : String} {tr : TypeRef}
    (hn : (n == "__typename") = false)
    (htr : t.fieldType n = some tr)
    (hal : al.getD n = k)
    (hpre : k ∉ selKeyList ctx.schema t pre)
    (h : fillSels ctx fuel t (pre ++ .field n al sub :: post) ov ro = .ok es) :
    (∀ p, lookupEntry k ov = some p →
      ∃ w, fillTypeRef ctx (fuel - 1) t tr sub (some p) = .ok w ∧
        lookupField k es = some w) ∧
    (lookupEntry k ov = none →
      ∃ w, fillTypeRef ctx (fuel - 1) t tr sub (lookupEntry k ro) = .ok w ∧
        lookupField k es = some w) ∧
    (∀ p v, lookupEntry k ov = some p → resolveThunks p = .val v →
      lookupField k es = some v) := by
  obtain ⟨e₁, b, e₃, rfl, h₁, hb, h₃⟩ := fillSels_split h
  cases fuel with
  | zero =>
    simp only [fillSel] at hb
    cases hb
  | succ fuel =>
    simp only [fillSel, hn, Bool.false_eq_true, if_false, htr] at hb
    rw [hal] at hb
    revert hb
    cases hw : fillTypeRef ctx fuel t tr sub (entryChoice ov ro k) with
    | error e => intro hb; cases hb
    | ok w =>
      intro hb
      cases hb
      have hk1 : e₁.map Prod.fst = selKeyList ctx.schema t pre := fillSels_keys h₁
      have hlf1 : lookupField k e₁ = none := by
        refine lookupField_none_of_not_mem ?_
        rw [hk1]
        exact hpre
      have hfind : lookupField k (e₁ ++ [(k, w)] ++ e₃) = some w := by
        rw [List.append_assoc, List.singleton_append,
          lookupField_append_right hlf1, lookupField_cons_self]
      have hfuel : fuel + 1 - 1 = fuel := rfl
      refine ⟨?_, ?_, ?_⟩
      · intro p hp
        have hch : entryChoice ov ro k = some p := by
          unfold entryChoice
          rw [hp]
        rw [hch] at hw
        exact ⟨w, by rw [hfuel]; exact hw, hfind⟩
      · intro hp
        have hch : entryChoice ov ro k = lookupEntry k ro := by
          unfold entryChoice
          rw [hp]
        rw [hch] at hw
        exact ⟨w, by rw [hfuel]; exact hw, hfind⟩
      · intro p v hp hres
        have hch : entryChoice ov ro k = some p := by
          unfold entryChoice
          rw [hp]
        rw [hch] at hw
        have : w = v := fillTypeRef_val_ok hres hw
        rw [← this]
        exact hfind

/-- Witness for C1, from the falsy-override test: the override supplies
`active: false` while the resolver supplies `active: true`; the output
holds `false`. -/
theorem claim_C1_witness :
    ∃ es, fillSels falsyCtx 3
        (.object "Person" [⟨"active", .nonNull (.named "Boolean")⟩,
          ⟨"name", .nonNull (.named "String")⟩])
        ([] ++ .field "active" none [] :: [.field "name" none []])
        [("active", .val (.vbool false))]
        [("active", .val (.vbool true)), ("name", .val (.vstring "resolved"))] =
        .ok es ∧
      lookupField "active" es = some (.vbool false) := by
  refine ⟨[("active", .vbool false), ("name", .vstring "resolved")], rfl, ?_⟩
  exact (@claim_C1 falsyCtx 3
    (.object "Person" [⟨"active", .nonNull (.named "Boolean")⟩,
      ⟨"name", .nonNull (.named "String")⟩])
    [] [.field "name" none []] [] "active" none
    [("active", .val (.vbool false))]
    [("active", .val (.vbool true)), ("name", .val (.vstring "resolved"))]
    [("active", .vbool false), ("name", .vstring "resolved")]
    "active" (.nonNull (.named "Boolean"))
    rfl rfl rfl (by decide) rfl).2.2
    (.val (.vbool false)) (.vbool false) rfl rfl

/-- C2: supplying a `__typename` override (after thunk unwrapping)
naming a type that is not a member of the interface or union in scope
makes the fill of that field fail with `UnknownConcreteTypeError`, and
the `Except` result carries no partial value; moreover this is the only
validation failure the core raises: with sufficient fuel, a whole-
document fill either returns a value or fails with
`UnknownConcreteTypeError`. -/
theorem claim_C2 :
    (∀ (ctx : Context) (fuel : Nat) (parent : SchemaType) (sels : List Selection)
       (n nm : String) (ifs : List FieldDef) (ms : List String)
       (p : Override) (es : List (String × Override)) (s : String),
       ctx.schema.lookupType n = some (.interface nm ifs ms) →
       resolveThunks p = .obj es →
       typenameFrom es = some s →
       ms.contains s = false →
       fillTypeRef ctx (fuel + 1) parent (.named n) sels (some p) =
         .error (.unknownConcreteType s nm)) ∧
    (∀ (ctx : Context) (fuel : Nat) (parent : SchemaType) (sels : List Selection)
       (n nm : String) (ms : List String)
       (p : Override) (es : List (String × Override)) (s : String),
       ctx.schema.lookupType n = some (.union nm ms) →
       resolveThunks p = .obj es →
       typenameFrom es = some s →
       ms.contains s = false →
       fillTypeRef ctx (fuel + 1) parent (.named n) sels (some p) =
         .error (.unknownConcreteType s nm)) ∧
    (∀ (ctx : Context) (sels : List Selection) (p : Option Override),
      ∃ fuel₀, ∀ fuel, fuel₀ ≤ fuel →
        (∃ v, fillDocument ctx fuel sels p = .ok v) ∨
        (∃ s a, fillDocument ctx fuel sels p =
          .error (.unknownConcreteType s a))) := by
  refine ⟨?_, ?_, ?_⟩
  · intro ctx fuel parent sels n nm ifs ms p es s hlk hres hty hms
    have hcc : chooseConcrete ctx.rand nm ms (some (.obj es)) =
        .error (.unknownConcreteType s nm) := by
      unfold chooseConcrete
      simp only []
      rw [hty]
      simp only []
      rw [hms]
      simp
    simp only [fillTypeRef, Option.map]
    rw [hres, hlk]
    simp only []
    rw [hcc]
  · intro ctx fuel parent sels n nm ms p es s hlk hres hty hms
    have hcc : chooseConcrete ctx.rand nm ms (some (.obj es)) =
        .error (.unknownConcreteType s nm) := by
      unfold chooseConcrete
      simp only []
      rw [hty]
      simp only []
      rw [hms]
      simp
    simp only [fillTypeRef, Option.map]
    rw [hres, hlk]
    simp only []
    rw [hcc]
  · intro ctx sels p
    obtain ⟨fuel₀, h₀⟩ := fillDocument_adequate ctx sels p
    refine ⟨fuel₀, fun fuel hle => ?_⟩
    rw [fillDocument_mono_le ctx hle sels p h₀]
    cases hr : fillDocument ctx fuel₀ sels p with
    | ok v => exact Or.inl ⟨v, rfl⟩
    | error e =>
      cases e with
      | unknownConcreteType s a => exact Or.inr ⟨s, a, rfl⟩
      | outOfFuel => exact absurd hr h₀

/-- Witness for C2, from the interface test `'throws an error when a
provided typename is not an implementing type'`: the override
`{named: {__typename: "Mule"}}` makes the whole document fill fail with
`UnknownConcreteTypeError`. -/
theorem claim_C2_witness :
    fillTypeRef ifaceCtx 5 (.object "Query" [⟨"named", .nonNull (.named "Named")⟩])
        (.named "Named") [.field "__typename" none []]
        (some (.obj [("__typename", .val (.vstring "Mule"))])) =
      .error (.unknownConcreteType "Mule" "Named") ∧
    fillDocument ifaceCtx 5 [.field "named" none [.field "__typename" none []]]
        (some (.obj [("named", .obj [("__typename", .val (.vstring "Mule"))])])) =
      .error (.unknownConcreteType "Mule" "Named") := by
  constructor
  · exact claim_C2.1 ifaceCtx 4
      (.object "Query" [⟨"named", .nonNull (.named "Named")⟩])
      [.field "__typename" none []] "Named" "Named"
      [⟨"name", .nonNull (.named "String")⟩] ["Person", "Dog", "Cat"]
      (.obj [("__typename", .val (.vstring "Mule"))])
      [("__typename", .val (.vstring "Mule"))] "Mule" rfl rfl rfl rfl
  · rfl

/-- C4: a list-typed field with no override entry and no
resolver-supplied entry fills as the empty ordered sequence, and an
override supplying an explicit list of per-item entries fills to a list
of exactly that length, in the same order, each item filled by one
independent fill call against the item type (an absent per-item entry,
such as an empty-object entry's fields, is synthesized). -/
theorem claim_C4 :
    (∀ (ctx : Context) (fuel : Nat) (parent : SchemaType) (t' : TypeRef)
       (sels : List Selection),
      fillTypeRef ctx (fuel + 1) parent (.listOf t') sels none = .ok (.vlist [])) ∧
    (∀ (ctx : Context) (fuel : Nat) (parent : SchemaType) (t' : TypeRef)
       (sels : List Selection) (items : List (Option Override)) (v : Value),
      fillTypeRef ctx (fuel + 1) parent (.listOf t') sels (some (.arr items)) =
        .ok v →
      ∃ vs, v = .vlist vs ∧ vs.length = items.length ∧
        List.Forall₂ (fun it w => fillTypeRef ctx fuel parent t' sels it = .ok w)
          items vs) := by
  refine ⟨fun _ _ _ _ _ => rfl, ?_⟩
  intro ctx fuel parent t' sels items v h
  simp only [fillTypeRef, Option.map, resolveThunks] at h
  revert h
  cases hm : exceptMap (fun it => fillTypeRef ctx fuel parent t' sels it) items with
  | error e => intro h; cases h
  | ok vs =>
    intro h
    cases h
    have hf := exceptMap_ok_forall₂ hm
    exact ⟨vs, rfl, hf.length_eq.symm, hf⟩

/-- Witness for C4, from the lists tests: an absent entry fills the
`people` list empty, and the override `[{}, {name: "Chris"}]` fills a
two-item list whose first item is synthesized and whose second uses the
override. -/
theorem claim_C4_witness :
    fillTypeRef peopleCtx 4 (.object "Query"
        [⟨"people", .nonNull (.listOf (.nonNull (.named "Person")))⟩])
      (.listOf (.nonNull (.named "Person"))) [.field "name" none []] none =
      .ok (.vlist []) ∧
    (∃ vs, (Value.vlist [.vobject [("name", .vstring "synth")],
        .vobject [("name", .vstring "Chris")]]) = .vlist vs ∧
      vs.length = [some (Override.obj []),
        some (Override.obj [("name", .val (.vstring "Chris"))])].length ∧
      List.Forall₂ (fun it w => fillTypeRef peopleCtx 8 (.object "Query"
          [⟨"people", .nonNull (.listOf (.nonNull (.named "Person")))⟩])
          (.nonNull (.named "Person")) [.field "name" none []] it = .ok w)
        [some (.obj []), some (.obj [("name", .val (.vstring "Chris"))])]
        vs) := by
  constructor
  · exact claim_C4.1 peopleCtx 3 (.object "Query"
      [⟨"people", .nonNull (.listOf (.nonNull (.named "Person")))⟩])
      (.nonNull (.named "Person")) [.field "name" none []]
  · exact claim_C4.2 peopleCtx 8 (.object "Query"
      [⟨"people", .nonNull (.listOf (.nonNull (.named "Person")))⟩])
      (.nonNull (.named "Person")) [.field "name" none []]
      [some (.obj []), some (.obj [("name", .val (.vstring "Chris"))])]
      (.vlist [.vobject [("name", .vstring "synth")],
        .vobject [("name", .vstring "Chris")]]) (by rfl)

/-- C5: replacing override entries by zero-argument thunks producing
them, at any depth (including thunks yielding trees that themselves
contain thunks, and thunk-produced `__typename` strings), leaves the
fill output unchanged: any two override trees with the same thunk-free
normal form fill identically. -/
theorem claim_C5 (ctx : Context) (fuel : Nat) (sels : List Selection)
    (p q : Option Override)
    (h : p.map stripFuncs = q.map stripFuncs) :
    fillDocument ctx fuel sels p = fillDocument ctx fuel sels q := by
  have hstrip : ∀ r : Option Override,
      fillDocument ctx fuel sels (r.map stripFuncs) = fillDocument ctx fuel sels r := by
    intro r
    unfold fillDocument
    cases hq : ctx.schema.lookupType ctx.schema.queryTypeName with
    | none => rfl
    | some st =>
      cases st with
      | object nm fs =>
        simp only []
        rw [option_map_resolve_strip]
        refine (fill_strip ctx fuel).2.2 nm fs sels (r.map resolveThunks)
          (.object nm fs) ?_
        intro x hc
        cases r with
        | none => cases hc
        | some r' => exact resolveThunks_not_func r' x (Option.some.inj hc)
      | scalar _ => rfl
      | enum _ _ => rfl
      | interface _ _ _ => rfl
      | union _ _ => rfl
  calc fillDocument ctx fuel sels p
      = fillDocument ctx fuel sels (p.map stripFuncs) := (hstrip p).symm
    _ = fillDocument ctx fuel sels (q.map stripFuncs) := by rw [h]
    _ = fillDocument ctx fuel sels q := hstrip q

/-- Witness for C5, from the nested function-partial tests: the
override `{self: () => ({mother: {name: () => "Chris"}})}` fills the
nested document identically to the literal
`{self: {mother: {name: "Chris"}}}`. -/
theorem claim_C5_witness :
    fillDocument nestedCtx 10 nestedDoc
        (some (.obj [("self", .func (.obj [("mother",
          .obj [("name", .func (.val (.vstring "Chris")))])]))])) =
      fillDocument nestedCtx 10 nestedDoc
        (some (.obj [("self", .obj [("mother",
          .obj [("name", .val (.vstring "Chris"))])])])) :=
  claim_C5 nestedCtx 10 nestedDoc _ _ rfl

/-- C9: a fill invocation always has a sufficient fuel: for every
schema (cyclic type references included), every finite selection set
and every Partial Override Tree, there is a fuel at which the fill does
not exhaust and beyond which the result never changes — the recursion
is bounded by the supplied selection-set tree, not by the schema's type
graph. -/
theorem claim_C9 (ctx : Context) (sels : List Selection) (p : Option Override) :
    ∃ fuel₀, fillDocument ctx fuel₀ sels p ≠ .error .outOfFuel ∧
      ∀ fuel, fuel₀ ≤ fuel →
        fillDocument ctx fuel sels p = fillDocument ctx fuel₀ sels p := by
  obtain ⟨fuel₀, h₀⟩ := fillDocument_adequate ctx sels p
  exact ⟨fuel₀, h₀, fun fuel hle => fillDocument_mono_le ctx hle sels p h₀⟩

/-- Witness for C9: the recursive `Person.mother: Person!` schema (a
cyclic type reference) with the finite nested document has a stable
sufficient fuel. -/
theorem claim_C9_witness :
    ∃ fuel₀, fillDocument nestedCtx fuel₀ nestedDoc none ≠ .error .outOfFuel ∧
      ∀ fuel, fuel₀ ≤ fuel →
        fillDocument nestedCtx fuel nestedDoc none =
          fillDocument nestedCtx fuel₀ nestedDoc none :=
  claim_C9 nestedCtx nestedDoc none

/-- C7: a non-null scalar or enum leaf with no override entry and no
registered resolver synthesizes a value of the declared kind: `Int`
yields an integer value (vint, equal to its own rounding), `Float` a
number that differs from every integer (never equal to its own
rounding), `Boolean` a boolean, and `String`, `ID` or any unknown
custom scalar name a string; an enum leaf yields a member of the enum's
declared value set. -/
theorem claim_C7 :
    (∀ (ctx : Context) (fuel : Nat) (parent : SchemaType) (sels : List Selection)
       (n : String),
       (ctx.schema.lookupType n = none ∨
         ∃ s, ctx.schema.lookupType n = some (.scalar s)) →
       ctx.resolverFor n = none →
       fillTypeRef ctx (fuel + 1) parent (.named n) sels none =
         .ok (synthesizeScalar ctx.rand n)) ∧
    (∀ r : RandomSource, synthesizeScalar r "Int" = .vint r.int) ∧
    (∀ r : RandomSource, ∃ q : Rat, synthesizeScalar r "Float" = .vfloat q ∧
       ∀ z : Int, q ≠ (z : Rat)) ∧
    (∀ r : RandomSource, synthesizeScalar r "Boolean" = .vbool r.bool) ∧
    (∀ (r : RandomSource) (n : String), n ≠ "Int" → n ≠ "Float" → n ≠ "Boolean" →
       synthesizeScalar r n = .vstring r.string) ∧
    (∀ (ctx : Context) (fuel : Nat) (parent : SchemaType) (sels : List Selection)
       (n nm : String) (values : List String),
       ctx.schema.lookupType n = some (.enum nm values) →
       ctx.resolverFor n = none →
       values ≠ [] →
       ∃ m, fillTypeRef ctx (fuel + 1) parent (.named n) sels none =
         .ok (.vstring m) ∧ m ∈ values) := by
  refine ⟨?_, fun r => rfl, ?_, fun r => rfl, ?_, ?_⟩
  · intro ctx fuel parent sels n hlk hres
    rcases hlk with hlk | ⟨s, hlk⟩
    · simp only [fillTypeRef, Option.map]
      rw [hlk]
      simp only [fillScalarLeaf]
      rw [hres]
    · simp only [fillTypeRef, Option.map]
      rw [hlk]
      simp only [fillScalarLeaf]
      rw [hres]
  · intro r
    refine ⟨(2 * r.floatBase + 1 : Rat) / 2, rfl, ?_⟩
    intro z hz
    have h2 : (2 * (r.floatBase : Rat) + 1) = z * 2 := by
      have h2ne : (2 : Rat) ≠ 0 := two_ne_zero
      have := (div_eq_iff h2ne).mp hz
      push_cast at this ⊢
      linarith
    have h3 : 2 * r.floatBase + 1 = z * 2 := by exact_mod_cast h2
    omega
  · intro r n h1 h2 h3
    have b1 : (n == "Int") = false := by
      simp [h1]
    have b2 : (n == "Float") = false := by
      simp [h2]
    have b3 : (n == "Boolean") = false := by
      simp [h3]
    simp [synthesizeScalar, b1, b2, b3]
  · intro ctx fuel parent sels n nm values hlk hres hne
    have hlen : 0 < values.length := List.length_pos.mpr hne
    have hidx : ctx.rand.pick % values.length < values.length :=
      Nat.mod_lt _ hlen
    refine ⟨values.getD (ctx.rand.pick % values.length) "", ?_, ?_⟩
    · simp only [fillTypeRef, Option.map]
      rw [hlk]
      simp only [fillEnumLeaf]
      rw [hres]
      rfl
    · rw [List.getD_eq_getElem values "" hidx]
      exact List.getElem_mem hidx

/-- Witness for C7, from the scalar and enum tests: an `Int` field
synthesizes the random integer, `Float` a non-integral value,
`Boolean` a boolean, the unknown custom scalar `Date` a string, and the
`PetPreference` enum one of `DOG`, `CAT`. -/
theorem claim_C7_witness :
    fillTypeRef nestedCtx 1 (.object "Query" []) (.named "Int") [] none =
      .ok (.vint 42) ∧
    (∃ q : Rat, synthesizeScalar testRand "Float" = .vfloat q ∧
      ∀ z : Int, q ≠ (z : Rat)) ∧
    synthesizeScalar testRand "Boolean" = .vbool true ∧
    synthesizeScalar testRand "Date" = .vstring "synth" ∧
    (∃ m, fillTypeRef enumCtx 1 (.object "Query" []) (.named "PetPreference") []
        none = .ok (.vstring m) ∧ m ∈ ["DOG", "CAT"]) := by
  refine ⟨?_, claim_C7.2.2.1 testRand, rfl, ?_, ?_⟩
  · exact claim_C7.1 nestedCtx 0 (.object "Query" []) [] "Int" (Or.inl rfl) rfl
  · exact claim_C7.2.2.2.2.1 testRand "Date" (by decide) (by decide) (by decide)
  · exact claim_C7.2.2.2.2.2 enumCtx 0 (.object "Query" []) [] "PetPreference"
      "PetPreference" ["DOG", "CAT"] rfl rfl (by decide)

/-! ## Inversion of an abstract-typed (interface or union) fill -/

theorem fillTypeRef_abstract_err {ctx : Context} {fuel : Nat}
    {parent : SchemaType} {n nm : String} {ms : List String} {st : SchemaType}
    {sels : List Selection} {es : List (String × Override)} {e : FillError}
    (hlk : ctx.schema.lookupType n = some st)
    (habs : abstractMembers st = some (nm, ms))
    (hc : chooseConcrete ctx.rand nm ms (some (.obj es)) = .error e) :
    fillTypeRef ctx (fuel + 1) parent (.named n) sels (some (.obj es)) =
      .error e := by
  cases st with
  | interface anm ifs ams =>
    have h1 : anm = nm ∧ ams = ms := by
      simpa [abstractMembers, Prod.ext_iff] using habs
    obtain ⟨rfl, rfl⟩ := h1
    simp only [fillTypeRef, Option.map, resolveThunks]
    rw [hlk]
    simp only []
    rw [hc]
  | union anm ams =>
    have h1 : anm = nm ∧ ams = ms := by
      simpa [abstractMembers, Prod.ext_iff] using habs
    obtain ⟨rfl, rfl⟩ := h1
    simp only [fillTypeRef, Option.map, resolveThunks]
    rw [hlk]
    simp only []
    rw [hc]
  | scalar s => cases habs
  | enum _ _ => cases habs
  | object _ _ => cases habs

theorem fillTypeRef_abstract_obj {ctx : Context} {fuel : Nat}
    {parent : SchemaType} {n nm c cn : String} {ms : List String}
    {st : SchemaType} {sels : List Selection} {es : List (String × Override)}
    {cfs : List FieldDef}
    (hlk : ctx.schema.lookupType n = some st)
    (habs : abstractMembers st = some (nm, ms))
    (hc : chooseConcrete ctx.rand nm ms (some (.obj es)) = .ok c)
    (hlc : ctx.schema.lookupType c = some (.object cn cfs)) :
    fillTypeRef ctx (fuel + 1) parent (.named n) sels (some (.obj es)) =
      fillObjectV ctx fuel cn cfs sels (some (.obj es)) parent := by
  cases st with
  | interface anm ifs ams =>
    have h1 : anm = nm ∧ ams = ms := by
      simpa [abstractMembers, Prod.ext_iff] using habs
    obtain ⟨rfl, rfl⟩ := h1
    simp only [fillTypeRef, Option.map, resolveThunks]
    rw [hlk]
    simp only []
    rw [hc]
    simp only []
    rw [hlc]
  | union anm ams =>
    have h1 : anm = nm ∧ ams = ms := by
      simpa [abstractMembers, Prod.ext_iff] using habs
    obtain ⟨rfl, rfl⟩ := h1
    simp only [fillTypeRef, Option.map, resolveThunks]
    rw [hlk]
    simp only []
    rw [hc]
    simp only []
    rw [hlc]
  | scalar s => cases habs
  | enum _ _ => cases habs
  | object _ _ => cases habs

/-- The Type Selector returns the override-requested member. -/
theorem chooseConcrete_requested {r : RandomSource} {nm s : String}
    {ms : List String} {es : List (String × Override)}
    (hty : typenameFrom es = some s) (hmem : ms.contains s = true) :
    chooseConcrete r nm ms (some (.obj es)) = .ok s := by
  unfold chooseConcrete
  simp only []
  rw [hty]
  simp only []
  rw [hmem]
  simp

/-- The Type Selector picks a member using the random source when no
`__typename` override is present. -/
theorem chooseConcrete_random {r : RandomSource} {nm : String}
    {ms : List String} {es : List (String × Override)}
    (hty : typenameFrom es = none) :
    chooseConcrete r nm ms (some (.obj es)) =
      .ok (ms.getD (r.pick % ms.length) nm) := by
  unfold chooseConcrete
  simp only []
  rw [hty]

/-- C3: for an interface- or union-typed field filled with an override
tree, exactly one concrete member type is chosen — the
override-supplied `__typename` when present, otherwise the member
picked by the random source, always a member of the abstract type's
member list — and the fill proceeds as a plain object fill of that
chosen concrete type; the resulting object's keys are exactly the
response names of the fields selected directly plus those of fragments
whose type condition matches the chosen concrete type (non-matching
fragments contribute nothing), with at most the `addTypename` meta-key
appended. -/
theorem claim_C3 :
    (∀ (ctx : Context) (fuel : Nat) (parent : SchemaType) (n : String)
       (st : SchemaType) (nm : String) (ms : List String)
       (sels : List Selection) (es : List (String × Override))
       (s cn : String) (cfs : List FieldDef),
       ctx.schema.lookupType n = some st →
       abstractMembers st = some (nm, ms) →
       typenameFrom es = some s →
       ms.contains s = true →
       ctx.schema.lookupType s = some (.object cn cfs) →
       fillTypeRef ctx (fuel + 1) parent (.named n) sels (some (.obj es)) =
         fillObjectV ctx fuel cn cfs sels (some (.obj es)) parent) ∧
    (∀ (ctx : Context) (fuel : Nat) (parent : SchemaType) (n : String)
       (st : SchemaType) (nm : String) (ms : List String)
       (sels : List Selection) (es : List (String × Override)),
       ctx.schema.lookupType n = some st →
       abstractMembers st = some (nm, ms) →
       typenameFrom es = none →
       ms ≠ [] →
       ms.getD (ctx.rand.pick % ms.length) nm ∈ ms ∧
       ∀ cn cfs,
         ctx.schema.lookupType (ms.getD (ctx.rand.pick % ms.length) nm) =
           some (.object cn cfs) →
         fillTypeRef ctx (fuel + 1) parent (.named n) sels (some (.obj es)) =
           fillObjectV ctx fuel cn cfs sels (some (.obj es)) parent) ∧
    (∀ (ctx : Context) (fuel : Nat) (parent : SchemaType) (cn : String)
       (cfs : List FieldDef) (sels : List Selection)
       (es : List (String × Override)) (v : Value),
       fillObjectV ctx fuel cn cfs sels (some (.obj es)) parent = .ok v →
       ∃ entries ce, v = .vobject entries ∧ entries = withTypename ctx cn ce ∧
         ce.map Prod.fst = selKeyList ctx.schema (.object cn cfs) sels) := by
  refine ⟨?_, ?_, ?_⟩
  · intro ctx fuel parent n st nm ms sels es s cn cfs hlk habs hty hmem hlc
    exact fillTypeRef_abstract_obj hlk habs (chooseConcrete_requested hty hmem) hlc
  · intro ctx fuel parent n st nm ms sels es hlk habs hty hne
    constructor
    · have hlen : 0 < ms.length := List.length_pos.mpr hne
      have hidx : ctx.rand.pick % ms.length < ms.length := Nat.mod_lt _ hlen
      rw [List.getD_eq_getElem ms nm hidx]
      exact List.getElem_mem hidx
    · intro cn cfs hlc
      exact fillTypeRef_abstract_obj hlk habs (chooseConcrete_random hty) hlc
  · intro ctx fuel parent cn cfs sels es v h
    obtain ⟨fuel', ce, hce, rfl⟩ := fillObjectV_tree_ok h
    exact ⟨withTypename ctx cn ce.flatten, ce.flatten, rfl, rfl,
      fill_keys ctx fuel' (.object cn cfs) sels es
        (resolverEntries ctx cn cfs parent) ce hce⟩

/-- Witness for C3, from the interface test `'picks an implementing
type based on a static typename provided'`: the override
`{__typename: "Person"}` pins the concrete type `Person`, the fill
reduces to the `Person` object fill, and the output holds exactly the
matching fragment's `occupation` key. -/
theorem claim_C3_witness :
    fillTypeRef ifaceCtx 9 (.object "Query" [⟨"named", .nonNull (.named "Named")⟩])
        (.named "Named") [.fragment "Person" [.field "occupation" none []]]
        (some (.obj [("__typename", .val (.vstring "Person"))])) =
      fillObjectV ifaceCtx 8 "Person"
        [⟨"name", .nonNull (.named "String")⟩,
          ⟨"occupation", .nonNull (.named "String")⟩]
        [.fragment "Person" [.field "occupation" none []]]
        (some (.obj [("__typename", .val (.vstring "Person"))]))
        (.object "Query" [⟨"named", .nonNull (.named "Named")⟩]) ∧
    (∃ entries ce, (Value.vobject [("occupation", Value.vstring "synth")]) =
        .vobject entries ∧ entries = withTypename ifaceCtx "Person" ce ∧
      ce.map Prod.fst = selKeyList ifaceCtx.schema
        (.object "Person" [⟨"name", .nonNull (.named "String")⟩,
          ⟨"occupation", .nonNull (.named "String")⟩])
        [.fragment "Person" [.field "occupation" none []]]) := by
  constructor
  · exact claim_C3.1 ifaceCtx 8
      (.object "Query" [⟨"named", .nonNull (.named "Named")⟩]) "Named"
      (.interface "Named" [⟨"name", .nonNull (.named "String")⟩]
        ["Person", "Dog", "Cat"])
      "Named" ["Person", "Dog", "Cat"]
      [.fragment "Person" [.field "occupation" none []]]
      [("__typename", .val (.vstring "Person"))]
      "Person" "Person"
      [⟨"name", .nonNull (.named "String")⟩,
        ⟨"occupation", .nonNull (.named "String")⟩]
      rfl rfl rfl rfl rfl
  · exact claim_C3.2.2 ifaceCtx 8
      (.object "Query" [⟨"named", .nonNull (.named "Named")⟩]) "Person"
      [⟨"name", .nonNull (.named "String")⟩,
        ⟨"occupation", .nonNull (.named "String")⟩]
      [.fragment "Person" [.field "occupation" none []]]
      [("__typename", .val (.vstring "Person"))]
      (.vobject [("occupation", .vstring "synth")]) (by rfl)

/-- C10: when a polymorphic field's concrete type is pinned by a
`__typename` override entry but the selection set does not itself
produce a `__typename` response key and the `addTypename` option is
off, the filled object contains no `__typename` key: the override
entry is consumed for type selection only and never copied into the
output. -/
theorem claim_C10 {ctx : Context} {fuel : Nat} {parent : SchemaType}
    {n : String} {st : SchemaType} {nm : String} {ms : List String}
    {sels : List Selection} {es : List (String × Override)}
    {s cn : String} {cfs : List FieldDef} {v : Value}
    (hlk : ctx.schema.lookupType n = some st)
    (habs : abstractMembers st = some (nm, ms))
    (hty : typenameFrom es = some s)
    (hmem : ms.contains s = true)
    (hlc : ctx.schema.lookupType s = some (.object cn cfs))
    (hat : ctx.addTypename = false)
    (hsel : "__typename" ∉ selKeyList ctx.schema (.object cn cfs) sels)
    (h : fillTypeRef ctx (fuel + 1) parent (.named n) sels (some (.obj es)) =
      .ok v) :
    ∃ entries, v = .vobject entries ∧
      lookupField "__typename" entries = none := by
  rw [fillTypeRef_abstract_obj hlk habs (chooseConcrete_requested hty hmem) hlc]
    at h
  obtain ⟨fuel', ce, hce, rfl⟩ := fillObjectV_tree_ok h
  have hkeys : ce.flatten.map Prod.fst =
      selKeyList ctx.schema (.object cn cfs) sels :=
    fill_keys ctx fuel' (.object cn cfs) sels es
      (resolverEntries ctx cn cfs parent) ce hce
  have hwt : withTypename ctx cn ce.flatten = ce.flatten := by
    unfold withTypename
    rw [hat]
    simp
  rw [hwt]
  refine ⟨ce.flatten, rfl, lookupField_none_of_not_mem ?_⟩
  rw [hkeys]
  exact hsel

/-- Witness for C10: in the interface test with override
`{named: {__typename: "Person"}}` and document selecting only the
`Person` fragment's `occupation`, the filled object has no
`__typename` key. -/
theorem claim_C10_witness :
    ∃ entries, (Value.vobject [("occupation", Value.vstring "synth")]) =
        .vobject entries ∧ lookupField "__typename" entries = none := by
  exact @claim_C10 ifaceCtx 8
    (.object "Query" [⟨"named", .nonNull (.named "Named")⟩]) "Named"
    (.interface "Named" [⟨"name", .nonNull (.named "String")⟩]
      ["Person", "Dog", "Cat"])
    "Named" ["Person", "Dog", "Cat"]
    [.fragment "Person" [.field "occupation" none []]]
    [("__typename", .val (.vstring "Person"))]
    "Person" "Person"
    [⟨"name", .nonNull (.named "String")⟩,
      ⟨"occupation", .nonNull (.named "String")⟩]
    (.vobject [("occupation", .vstring "synth")])
    rfl rfl rfl rfl rfl rfl (by decide) (by rfl)

/-- C6: an override tree addressing a leaf at any depth with a literal
value (the `OverrideAt` spine) makes exactly that value appear at the
same path of the filled output, whatever the resolver entries, the
random source and the sibling synthesis. -/
theorem claim_C6 {ctx : Context} {t : SchemaType} {sels : List Selection}
    {ov : List (String × Override)} {path : List String} {v : Value}
    (ha : OverrideAt ctx t sels ov path v) {fuel : Nat}
    {ro : List (String × Override)} {es : List (String × Value)}
    (h : fillSels ctx fuel t sels ov ro = .ok es) :
    getPath (.vobject es) path = some v :=
  overrideAt_getPath ha h

/-- Witness for C6, the spec's own nested-override example: override
`{self: {mother: {name: "X"}}}` on `self { name mother { name } }`
places `"X"` at path `self.mother.name` while the sibling `self.name`
is synthesized. -/
theorem claim_C6_witness :
    ∃ es, fillSels nestedCtx 12
        (.object "Query" [⟨"self", .nonNull (.named "Person")⟩])
        [.field "self" none [.field "name" none [],
          .field "mother" none [.field "name" none []]]]
        [("self", .obj [("mother", .obj [("name", .val (.vstring "X"))])])]
        [] = .ok es ∧
      getPath (.vobject es) ["self", "mother", "name"] = some (.vstring "X") ∧
      getPath (.vobject es) ["self", "name"] = some (.vstring "synth") := by
  refine ⟨[("self", .vobject [("name", .vstring "synth"),
    ("mother", .vobject [("name", .vstring "X")])])], rfl, ?_, rfl⟩
  have hfill : fillSels nestedCtx 12
      (.object "Query" [⟨"self", .nonNull (.named "Person")⟩])
      [.field "self" none [.field "name" none [],
        .field "mother" none [.field "name" none []]]]
      [("self", .obj [("mother", .obj [("name", .val (.vstring "X"))])])]
      [] = .ok [("self", .vobject [("name", .vstring "synth"),
        ("mother", .vobject [("name", .vstring "X")])])] := by rfl
  refine claim_C6 ?_ hfill
  refine @OverrideAt.step nestedCtx
    (.object "Query" [⟨"self", .nonNull (.named "Person")⟩])
    [] [] [.field "name" none [], .field "mother" none [.field "name" none []]]
    "self" none "self" (.nonNull (.named "Person"))
    [("self", .obj [("mother", .obj [("name", .val (.vstring "X"))])])]
    [("mother", .obj [("name", .val (.vstring "X"))])]
    (.obj [("mother", .obj [("name", .val (.vstring "X"))])])
    "Person" "Person"
    [⟨"name", .nonNull (.named "String")⟩, ⟨"mother", .nonNull (.named "Person")⟩]
    ["mother", "name"] (.vstring "X")
    rfl rfl (by decide) rfl (by decide) rfl rfl rfl rfl ?_
  refine @OverrideAt.step nestedCtx
    (.object "Person" [⟨"name", .nonNull (.named "String")⟩,
      ⟨"mother", .nonNull (.named "Person")⟩])
    [.field "name" none []] [] [.field "name" none []]
    "mother" none "mother" (.nonNull (.named "Person"))
    [("mother", .obj [("name", .val (.vstring "X"))])]
    [("name", .val (.vstring "X"))]
    (.obj [("name", .val (.vstring "X"))])
    "Person" "Person"
    [⟨"name", .nonNull (.named "String")⟩, ⟨"mother", .nonNull (.named "Person")⟩]
    ["name"] (.vstring "X")
    rfl rfl (by decide) rfl (by decide) rfl rfl rfl rfl ?_
  exact @OverrideAt.leaf nestedCtx
    (.object "Person" [⟨"name", .nonNull (.named "String")⟩,
      ⟨"mother", .nonNull (.named "Person")⟩])
    [] [] [] "name" none "name" (.nonNull (.named "String"))
    [("name", .val (.vstring "X"))]
    (.val (.vstring "X")) (.vstring "X")
    rfl rfl (by decide) rfl (by decide) rfl rfl

/-! ## Helpers for the `__typename` placement claim -/

theorem fillObjectV_shape_ok {ctx : Context} {fuel : Nat} {nm : String}
    {fs : List FieldDef} {sels : List Selection} {entry : Option Override}
    {parent : SchemaType} {v : Value}
    (hshape : entry = none ∨ ∃ es0, entry = some (.obj es0))
    (h : fillObjectV ctx fuel nm fs sels entry parent = .ok v) :
    ∃ ov fuel' ce,
      exceptMap (fun s => fillSel ctx fuel' (.object nm fs) s ov
        (resolverEntries ctx nm fs parent)) sels = .ok ce ∧
      v = .vobject (withTypename ctx nm ce.flatten) := by
  rcases hshape with rfl | ⟨es0, rfl⟩
  · obtain ⟨fuel', ce, hce, rfl⟩ := fillObjectV_none_ok h
    exact ⟨[], fuel', ce, hce, rfl⟩
  · obtain ⟨fuel', ce, hce, rfl⟩ := fillObjectV_tree_ok h
    exact ⟨es0, fuel', ce, hce, rfl⟩

mutual
theorem mem_selKeyOne_of_requests (schema : Schema) (t : SchemaType) :
    ∀ s : Selection, requestsOne schema t s = true →
      "__typename" ∈ selKeyOne schema t s
  | .field n al sub, h => by
    simp only [requestsOne, Bool.and_eq_true] at h
    obtain ⟨h1, h2⟩ := h
    have h2' : al.getD n = "__typename" := by
      simpa using h2
    simp [selKeyOne, h1, h2']
  | .fragment cond sub, h => by
    simp only [requestsOne, Bool.and_eq_true] at h
    obtain ⟨h1, h2⟩ := h
    simp only [selKeyOne, h1, if_true]
    exact mem_selKeyList_of_requests schema t sub h2

theorem mem_selKeyList_of_requests (schema : Schema) (t : SchemaType) :
    ∀ sels : List Selection, requestsTypename schema t sels = true →
      "__typename" ∈ selKeyList schema t sels
  | [], h => by simp [requestsTypename] at h
  | s :: rest, h => by
    simp only [requestsTypename, Bool.or_eq_true] at h
    simp only [selKeyList, List.mem_append]
    rcases h with h | h
    · exact Or.inl (mem_selKeyOne_of_requests schema t s h)
    · exact Or.inr (mem_selKeyList_of_requests schema t rest h)
end

theorem lookupField_withTypename {ctx : Context} {nm a : String}
    {X : List (String × Value)} {u : Value}
    (h : lookupField a X = some u) :
    lookupField a (withTypename ctx nm X) = some u := by
  unfold withTypename
  by_cases hcond : (ctx.addTypename && (lookupField "__typename" X).isNone) = true
  · rw [if_pos hcond]
    exact lookupField_append_left h
  · rw [if_neg hcond]
    exact h

/-- C8: a filled object carries a `__typename` key naming the concrete
type in scope exactly when the selection requests the meta-field under
its own name or the `addTypename` option is on: (a) with the option on
the key is always present and names the concrete type; (b) with the
option off and no selection producing the `__typename` response key,
the key is absent; (c) an explicit plain request yields the key with
the concrete type's name even with the option off; (d) a request under
a different response alias yields the concrete type's name under that
alias.  Throughout, no ordinary field may be aliased to the
`__typename` key. -/
theorem claim_C8 :
    (∀ (ctx : Context) (fuel : Nat) (nm : String) (fs : List FieldDef)
       (sels : List Selection) (entry : Option Override) (parent : SchemaType)
       (v : Value),
      ctx.addTypename = true →
      noTypenameClash ctx.schema (.object nm fs) sels = true →
      (entry = none ∨ ∃ es0, entry = some (.obj es0)) →
      fillObjectV ctx fuel nm fs sels entry parent = .ok v →
      ∃ entries, v = .vobject entries ∧
        lookupField "__typename" entries = some (.vstring nm)) ∧
    (∀ (ctx : Context) (fuel : Nat) (nm : String) (fs : List FieldDef)
       (sels : List Selection) (entry : Option Override) (parent : SchemaType)
       (v : Value),
      ctx.addTypename = false →
      "__typename" ∉ selKeyList ctx.schema (.object nm fs) sels →
      (entry = none ∨ ∃ es0, entry = some (.obj es0)) →
      fillObjectV ctx fuel nm fs sels entry parent = .ok v →
      ∃ entries, v = .vobject entries ∧
        lookupField "__typename" entries = none) ∧
    (∀ (ctx : Context) (fuel : Nat) (nm : String) (fs : List FieldDef)
       (sels : List Selection) (entry : Option Override) (parent : SchemaType)
       (v : Value),
      requestsTypename ctx.schema (.object nm fs) sels = true →
      noTypenameClash ctx.schema (.object nm fs) sels = true →
      (entry = none ∨ ∃ es0, entry = some (.obj es0)) →
      fillObjectV ctx fuel nm fs sels entry parent = .ok v →
      ∃ entries, v = .vobject entries ∧
        lookupField "__typename" entries = some (.vstring nm)) ∧
    (∀ (ctx : Context) (fuel : Nat) (nm : String) (fs : List FieldDef)
       (pre post sub : List Selection) (a : String) (entry : Option Override)
       (parent : SchemaType) (v : Value),
      a ∉ selKeyList ctx.schema (.object nm fs) pre →
      (entry = none ∨ ∃ es0, entry = some (.obj es0)) →
      fillObjectV ctx fuel nm fs
        (pre ++ .field "__typename" (some a) sub :: post) entry parent = .ok v →
      ∃ entries, v = .vobject entries ∧
        lookupField a entries = some (.vstring nm)) := by
  refine ⟨?_, ?_, ?_, ?_⟩
  · intro ctx fuel nm fs sels entry parent v hat hcl hshape h
    obtain ⟨ov, fuel', ce, hce, rfl⟩ := fillObjectV_shape_ok hshape h
    refine ⟨withTypename ctx nm ce.flatten, rfl, ?_⟩
    cases hlf : lookupField "__typename" ce.flatten with
    | some u =>
      have hu : u = .vstring nm :=
        fill_typename_entries ctx fuel' (.object nm fs) sels ov
          (resolverEntries ctx nm fs parent) ce hcl hce u (lookupField_mem hlf)
      rw [hu] at hlf
      exact lookupField_withTypename hlf
    | none =>
      unfold withTypename
      rw [hat, hlf]
      simp only [Option.isNone_none, Bool.and_true, if_true]
      rw [lookupField_append_right hlf, lookupField_cons_self]
  · intro ctx fuel nm fs sels entry parent v hat hsel hshape h
    obtain ⟨ov, fuel', ce, hce, rfl⟩ := fillObjectV_shape_ok hshape h
    have hkeys : ce.flatten.map Prod.fst =
        selKeyList ctx.schema (.object nm fs) sels :=
      fill_keys ctx fuel' (.object nm fs) sels ov
        (resolverEntries ctx nm fs parent) ce hce
    have hwt : withTypename ctx nm ce.flatten = ce.flatten := by
      unfold withTypename
      rw [hat]
      simp
    rw [hwt]
    refine ⟨ce.flatten, rfl, lookupField_none_of_not_mem ?_⟩
    rw [hkeys]
    exact hsel
  · intro ctx fuel nm fs sels entry parent v hreq hcl hshape h
    obtain ⟨ov, fuel', ce, hce, rfl⟩ := fillObjectV_shape_ok hshape h
    have hkeys : ce.flatten.map Prod.fst =
        selKeyList ctx.schema (.object nm fs) sels :=
      fill_keys ctx fuel' (.object nm fs) sels ov
        (resolverEntries ctx nm fs parent) ce hce
    have hmem : "__typename" ∈ ce.flatten.map Prod.fst := by
      rw [hkeys]
      exact mem_selKeyList_of_requests ctx.schema (.object nm fs) sels hreq
    obtain ⟨u, hlf⟩ := lookupField_isSome_of_mem_keys hmem
    have hu : u = .vstring nm :=
      fill_typename_entries ctx fuel' (.object nm fs) sels ov
        (resolverEntries ctx nm fs parent) ce hcl hce u (lookupField_mem hlf)
    rw [hu] at hlf
    exact ⟨withTypename ctx nm ce.flatten, rfl, lookupField_withTypename hlf⟩
  · intro ctx fuel nm fs pre post sub a entry parent v hpre hshape h
    obtain ⟨ov, fuel', ce, hce, rfl⟩ := fillObjectV_shape_ok hshape h
    obtain ⟨b₁, b₂, rfl, h₁, h₂⟩ := exceptMap_append_ok hce
    obtain ⟨b, b₃, rfl, hb, h₃⟩ := exceptMap_cons_ok h₂
    cases fuel' with
    | zero =>
      simp only [fillSel] at hb
      cases hb
    | succ fuel' =>
      have hb' : b = [(a, .vstring nm)] := by
        simp only [fillSel] at hb
        exact (Except.ok.inj hb).symm
      subst hb'
      have hk1 : b₁.flatten.map Prod.fst =
          selKeyList ctx.schema (.object nm fs) pre :=
        fill_keys ctx (fuel' + 1) (.object nm fs) pre ov
          (resolverEntries ctx nm fs parent) b₁ h₁
      have hlf1 : lookupField a b₁.flatten = none := by
        refine lookupField_none_of_not_mem ?_
        rw [hk1]
        exact hpre
      have hlf : lookupField a (b₁ ++ [(a, Value.vstring nm)] :: b₃).flatten =
          some (.vstring nm) := by
        rw [List.flatten_append, List.flatten_cons]
        rw [lookupField_append_right hlf1, List.singleton_append,
          lookupField_cons_self]
      exact ⟨_, rfl, lookupField_withTypename hlf⟩

/-- Witness for C8, from the typename tests over `Person { name }`:
with `addTypename` on, the filled `Person` object carries
`__typename: "Person"` whether or not requested, an aliased request
`type: __typename` yields `"Person"` under `type` as well, and with
the option off and no request there is no `__typename` key. -/
theorem claim_C8_witness :
    (∃ entries, (Value.vobject [("name", Value.vstring "synth"),
        ("__typename", Value.vstring "Person")]) = .vobject entries ∧
      lookupField "__typename" entries = some (.vstring "Person")) ∧
    (∃ entries, (Value.vobject [("type", Value.vstring "Person"),
        ("__typename", Value.vstring "Person")]) = .vobject entries ∧
      lookupField "type" entries = some (.vstring "Person")) ∧
    (∃ entries, (Value.vobject [("name", Value.vstring "synth")]) =
        .vobject entries ∧ lookupField "__typename" entries = none) := by
  refine ⟨?_, ?_, ?_⟩
  · exact claim_C8.1 typenameCtx 5 "Person" [⟨"name", .nonNull (.named "String")⟩]
      [.field "name" none []] none (.object "Query" []) _
      rfl rfl (Or.inl rfl) (by rfl)
  · exact claim_C8.2.2.2 typenameCtx 5 "Person"
      [⟨"name", .nonNull (.named "String")⟩]
      [] [] [] "type" none (.object "Query" []) _
      (by decide) (Or.inl rfl) (by rfl)
  · exact claim_C8.2.1 nestedCtx 5 "Person"
      [⟨"name", .nonNull (.named "String")⟩, ⟨"mother", .nonNull (.named "Person")⟩]
      [.field "name" none []] none (.object "Query" []) _
      rfl (by decide) (Or.inl rfl) (by rfl)

end GraphQLFill
